import Mathlib

/-!
Verification of the section-document model, LLM-client glue and dialogue
state machine of the `ai_prompt_generator_for_cursor` repository.

Python strings are modelled as `List Char`.  Python's `str.strip`,
`str.upper`, `str.lower`, `str.isdigit` are modelled over the character
ranges that actually occur in this code base (ASCII plus the Cyrillic
alphabet used by the keyword lists); `in` (substring test) is `hasSub`,
`str.split('\n')` is `splitNl`, `'\n'.join` is `joinNl`.  Python `dict`
(insertion ordered, assignment keeps the position of an existing key) is
an association list manipulated through `dictSet`.
-/

/-- The string of a Lean string literal, as a Python-style char list. -/
def lit (s : String) : List Char := s.toList

/-- Characters stripped by Python's default `str.strip()` (ASCII model). -/
def isPySpace (c : Char) : Bool :=
  c = ' ' || c = '\t' || c = '\n' || c = '\r' || c = '\x0b' || c = '\x0c'

/-- Python `str.upper()` on one character: ASCII letters and the Cyrillic
range `а`–`я`, `ё` (the only cased characters this program manipulates). -/
def pyUpperChar (c : Char) : Char :=
  if 'a' ≤ c ∧ c ≤ 'z' then Char.ofNat (c.toNat - 32)
  else if 'а' ≤ c ∧ c ≤ 'я' then Char.ofNat (c.toNat - 32)
  else if c = 'ё' then 'Ё' else c

/-- Python `str.lower()` on one character (same modelled ranges). -/
def pyLowerChar (c : Char) : Char :=
  if 'A' ≤ c ∧ c ≤ 'Z' then Char.ofNat (c.toNat + 32)
  else if 'А' ≤ c ∧ c ≤ 'Я' then Char.ofNat (c.toNat + 32)
  else if c = 'Ё' then 'ё' else c

/-- Python `str.upper()`. -/
def pyUpper (s : List Char) : List Char := s.map pyUpperChar

/-- Python `str.lower()`. -/
def pyLower (s : List Char) : List Char := s.map pyLowerChar

/-- Python `str.lstrip()` (no argument). -/
def stripL (s : List Char) : List Char := s.dropWhile isPySpace

/-- Python `str.rstrip()` (no argument). -/
def stripR (s : List Char) : List Char := (s.reverse.dropWhile isPySpace).reverse

/-- Python `str.strip()` (no argument). -/
def pyStrip (s : List Char) : List Char := stripR (stripL s)

/-- Python `s.split('\n')`.  Always returns at least one piece. -/
def splitNl : List Char → List (List Char)
  | [] => [[]]
  | c :: t =>
    if c = '\n' then [] :: splitNl t
    else
      match splitNl t with
      | [] => [[c]]
      | h :: r => (c :: h) :: r

/-- Python `'\n'.join(xs)`. -/
def joinNl : List (List Char) → List Char
  | [] => []
  | [x] => x
  | x :: y :: t => x ++ '\n' :: joinNl (y :: t)

/-- Test `leadsWith p s` : `s` begins with the character sequence `p`
(Python `s.startswith(p)`). -/
def leadsWith : List Char → List Char → Bool
  | [], _ => true
  | _ :: _, [] => false
  | a :: x, b :: y => a = b && leadsWith x y

/-- Python substring test `sub in s`. -/
def hasSub : List Char → List Char → Bool
  | s, sub =>
    match s with
    | [] => sub.isEmpty
    | _ :: t => leadsWith sub s || hasSub t sub

/-- The keyword list of `parse_sections` (src/utils.py lines 59-61). -/
def sectionKeywords : List (List Char) :=
  [lit ("ЗАДАЧА"), lit ("GOAL"), lit ("ТРЕБОВАНИЯ"), lit ("REQUIREMENTS"),
   lit ("TECH STACK"), lit ("АРХИТЕКТУРА"), lit ("ARCHITECTURE"),
   lit ("ДОПОЛНИТЕЛЬНЫЕ"), lit ("ADDITIONAL"), lit ("OUTPUT"), lit ("ФОРМАТ")]

/-- The heading test of `parse_sections` (src/utils.py line 57):
`line.strip().startswith('#') and any(keyword in line.upper() for keyword in …)`. -/
def isSectionHeading (line : List Char) : Bool :=
  leadsWith (lit ("#")) (pyStrip line)
    && sectionKeywords.any (fun kw => hasSub (pyUpper line) kw)

/-- Python dict assignment `d[k] = v`: replaces in place if `k` is present,
otherwise appends at the end (insertion order). -/
def dictSet : List (List Char × List Char) → List Char → List Char →
    List (List Char × List Char)
  | [], k, v => [(k, v)]
  | (k', v') :: t, k, v =>
    if k' = k then (k', v) :: t else (k', v') :: dictSet t k v

/-- Keys of the ordered dict. -/
def dictKeys (d : List (List Char × List Char)) : List (List Char) :=
  d.map Prod.fst

/-- The loop of `parse_sections` (src/utils.py lines 55-72), folded over the
remaining lines.  State: sections built so far, `current_section`,
`current_content`. -/
def parseLoop : List (List Char × List Char) → Option (List Char) →
    List (List Char) → List (List Char) →
    List (List Char × List Char) × Option (List Char) × List (List Char)
  | secs, cur, content, [] => (secs, cur, content)
  | secs, cur, content, line :: rest =>
    if isSectionHeading line then
      let secs' :=
        match cur with
        | some s => dictSet secs s (pyStrip (joinNl content))
        | none => secs
      parseLoop secs' (some (pyStrip line)) [] rest
    else
      match cur with
      | some _ => parseLoop secs cur (content ++ [line]) rest
      | none => parseLoop secs cur content rest

/-- Flush of the pending section after the loop (src/utils.py lines 74-76). -/
def parseFinish (st : List (List Char × List Char) × Option (List Char) ×
    List (List Char)) : List (List Char × List Char) :=
  match st with
  | (secs, some s, content) => dictSet secs s (pyStrip (joinNl content))
  | (secs, none, _) => secs

/-- Model of `parse_sections` (src/utils.py lines 47-82). -/
def parse_sections (prompt : List Char) : List (List Char × List Char) :=
  let secs := parseFinish (parseLoop [] none [] (splitNl prompt))
  if secs.isEmpty then [(lit ("Полный промпт"), prompt)] else secs

/-- Model of `get_section_list` (src/utils.py lines 85-88). -/
def get_section_list (prompt : List Char) : List (List Char) :=
  dictKeys (parse_sections prompt)

/-- The re-assembly block shared by `update_section`,
`add_requirement_to_prompt` and `remove_requirement_from_prompt`
(src/utils.py lines 108-115, 137-144, 167-174):
`for k, v in sections.items(): result += [k, v, ""]` then
`'\n'.join(result).strip()`. -/
def rebuildPrompt (secs : List (List Char × List Char)) : List Char :=
  pyStrip (joinNl (List.flatten (secs.map (fun kv => [kv.1, kv.2, []]))))

/-- The bidirectional case-insensitive match of `update_section`
(src/utils.py line 98). -/
def matchesTarget (key target : List Char) : Bool :=
  hasSub (pyLower key) (pyLower target) || hasSub (pyLower target) (pyLower key)

/-- Model of `update_section` (src/utils.py lines 91-115). -/
def update_section (prompt target newContent : List Char) : List Char :=
  let secs := parse_sections prompt
  let secs' :=
    match secs.find? (fun kv => matchesTarget kv.1 target) with
    | some kv => dictSet secs kv.1 newContent
    | none => dictSet secs (lit ("# ") ++ pyUpper target) newContent
  rebuildPrompt secs'

/-- The requirements-keyword test of `add_requirement_to_prompt` and
`remove_requirement_from_prompt` (src/utils.py lines 125, 154). -/
def isReqKey (key : List Char) : Bool :=
  [lit ("ТРЕБОВАНИЯ"), lit ("REQUIREMENTS")].any
    (fun kw => hasSub (pyUpper key) kw)

/-- Model of `add_requirement_to_prompt` (src/utils.py lines 118-144). -/
def add_requirement_to_prompt (prompt requirement : List Char) : List Char :=
  let secs := parse_sections prompt
  let secs' :=
    match secs.find? (fun kv => isReqKey kv.1) with
    | some kv => dictSet secs kv.1 (kv.2 ++ lit ("\n- ") ++ requirement)
    | none =>
      dictSet secs (lit ("# ТРЕБОВАНИЯ / # REQUIREMENTS"))
        (lit ("- ") ++ requirement)
  rebuildPrompt secs'

/-- Model of `remove_requirement_from_prompt` (src/utils.py lines 147-174). -/
def remove_requirement_from_prompt (prompt requirementText : List Char) :
    List Char :=
  let secs := parse_sections prompt
  let secs' :=
    match secs.find? (fun kv => isReqKey kv.1) with
    | some kv =>
      dictSet secs kv.1
        (pyStrip (joinNl ((splitNl kv.2).filter
          (fun line => !(hasSub (pyLower line) (pyLower requirementText))))))
    | none => secs
  rebuildPrompt secs'

/-! ## LLM client (src/llm_client.py) -/

/-- The tail piece of Python `line.split('.', 1)[-1]`: the part after the
first `'.'` when one exists. -/
def afterDot : List Char → Option (List Char)
  | [] => none
  | c :: t => if c = '.' then some t else afterDot t

/-- Python `line.split('.', 1)[-1]`: the part after the first dot, or the
whole string when there is no dot. -/
def splitDotLast (s : List Char) : List Char := (afterDot s).getD s

/-- One iteration of the question-extraction loop of
`generate_clarification_questions` (src/llm_client.py lines 84-91),
returning the question the line contributes, if any. -/
def questionOfLine (rawLine : List Char) : Option (List Char) :=
  let line := pyStrip rawLine
  match line with
  | [] => none
  | c :: _ =>
    if c.isDigit || leadsWith (lit ("-")) line then
      let q := pyStrip (splitDotLast line)
      let q := pyStrip (q.dropWhile (fun ch => ch = '-' || ch = ' '))
      if !q.isEmpty && q.getLast? = some '?' then some q else none
    else none

/-- The question-extraction section of `generate_clarification_questions`
(src/llm_client.py lines 82-98), applied to the raw LLM response. -/
def extract_questions (response : List Char) : List (List Char) :=
  let qs := (splitNl (pyStrip response)).foldl
    (fun acc l =>
      match questionOfLine l with
      | some q => acc ++ [q]
      | none => acc) []
  if qs.isEmpty then [pyStrip response] else qs

/-- The structured recommendation record built by
`generate_recommendations` (src/llm_client.py lines 141-160). -/
structure RecommendationRecord where
  tech_stack : List Char
  architecture : List Char
  key_features : List (List Char)
  scalability : List Char
  compliance : List Char
  risks : List (List Char)
  recommendation_summary : List Char
deriving DecidableEq

/-- Python `s.find(c)`: index of the first occurrence, `-1` when absent. -/
def pyFind : List Char → Char → Int
  | [], _ => -1
  | a :: t, c =>
    if a = c then 0
    else if pyFind t c = -1 then -1 else pyFind t c + 1

/-- Python `s.rfind(c)`: index of the last occurrence, `-1` when absent. -/
def pyRFind (s : List Char) (c : Char) : Int :=
  if pyFind s.reverse c = -1 then -1
  else (s.length : Int) - 1 - pyFind s.reverse c

/-- Python `s[a:b]` for `0 ≤ a ≤ b ≤ len(s)` (the only way the program
slices). -/
def pySlice (s : List Char) (a b : Int) : List Char :=
  (s.take b.toNat).drop a.toNat

/-- The fixed placeholder `"Требуется уточнение"`. -/
def needsClarification : List Char := lit ("Требуется уточнение")

/-- The fallback record built when no brace pair is found
(src/llm_client.py lines 141-149). -/
def fallbackNoJson (response : List Char) : RecommendationRecord :=
  { tech_stack := if 200 < response.length then response.take 200 else response
    architecture := needsClarification
    key_features := []
    scalability := needsClarification
    compliance := needsClarification
    risks := []
    recommendation_summary := response }

/-- The fallback record built when `json.loads` raises `JSONDecodeError`
(src/llm_client.py lines 152-160). -/
def fallbackBadJson (response : List Char) : RecommendationRecord :=
  { tech_stack := needsClarification
    architecture := needsClarification
    key_features := []
    scalability := needsClarification
    compliance := needsClarification
    risks := []
    recommendation_summary := response }

/-- The response-normalisation section of `generate_recommendations`
(src/llm_client.py lines 131-160).  `jsonLoads` stands for the external
`json.loads` plus the resulting dict: `none` models `JSONDecodeError`. -/
def normalize_recommendations
    (jsonLoads : List Char → Option RecommendationRecord)
    (response : List Char) : RecommendationRecord :=
  let jsonStart := pyFind response '{'
  let jsonEnd := pyRFind response '}' + 1
  if jsonStart ≠ -1 ∧ jsonStart < jsonEnd then
    match jsonLoads (pySlice response jsonStart jsonEnd) with
    | some r => r
    | none => fallbackBadJson response
  else
    fallbackNoJson response

/-- Outcome of one `chat.completions.create` attempt: a returned text, an
`OpenAIError`, or any other exception (error payloads are numbered). -/
inductive AttemptOutcome where
  | success (text : List Char)
  | serviceError (e : Nat)
  | unexpectedError (e : Nat)
deriving DecidableEq

/-- Result of `_call_with_retry`: returned value, or a propagated
exception.  `finished` models falling out of the loop (`return None`). -/
inductive CallResult where
  | ok (text : List Char)
  | finished
  | serviceRaise (e : Nat)
  | unexpectedRaise (e : Nat)
deriving DecidableEq

/-- Observable behaviour of `_call_with_retry`: its result, how many
requests were issued, and the list of `asyncio.sleep` delays. -/
structure RetryTrace where
  result : CallResult
  calls : Nat
  waits : List Nat
deriving DecidableEq

/-- The `for attempt in range(max_retries)` loop of `_call_with_retry`
(src/llm_client.py lines 35-66), with `fuel` iterations left and the
current `attempt` index and `delay`.  `outcomes i` is what the i-th
request does. -/
def retryLoop (outcomes : Nat → AttemptOutcome) :
    Nat → Nat → Nat → RetryTrace
  | _, _, 0 => ⟨.finished, 0, []⟩
  | attempt, delay, fuel + 1 =>
    match outcomes attempt with
    | .success t => ⟨.ok t, 1, []⟩
    | .serviceError e =>
      if fuel = 0 then ⟨.serviceRaise e, 1, []⟩
      else
        let r := retryLoop outcomes (attempt + 1) (delay * 2) fuel
        ⟨r.result, r.calls + 1, delay :: r.waits⟩
    | .unexpectedError e => ⟨.unexpectedRaise e, 1, []⟩

/-- Model of `_call_with_retry` (src/llm_client.py lines 26-66): `maxRetries`
attempts starting from `config.RETRY_DELAY = retryDelay`. -/
def call_with_retry (outcomes : Nat → AttemptOutcome)
    (maxRetries retryDelay : Nat) : RetryTrace :=
  retryLoop outcomes 0 retryDelay maxRetries

/-! ## Session store (src/session_manager.py) and dialogue handlers
(src/main.py) -/

/-- One user session (src/session_manager.py lines 19-27).
`answers` is the insertion-ordered Python dict; `recommendations` starts
as the empty dict (`none`). -/
structure Session where
  task_description : List Char
  clarification_questions : List (List Char)
  answers : List (List Char × List Char)
  recommendations : Option RecommendationRecord
  current_prompt : List Char
  created_at : Nat
  edited_count : Nat
deriving DecidableEq

/-- The fresh session created by `get_session` for an unknown user
(src/session_manager.py lines 19-27); `now` models `datetime.now()`. -/
def defaultSession (now : Nat) : Session :=
  { task_description := []
    clarification_questions := []
    answers := []
    recommendations := none
    current_prompt := []
    created_at := now
    edited_count := 0 }

/-- Model of `SessionManager.sessions`: the map from user id to session. -/
def Store : Type := Nat → Option Session

/-- Store update at one user id. -/
def setStore (st : Store) (u : Nat) (s : Session) : Store :=
  fun v => if v = u then some s else st v

/-- Model of `SessionManager.get_session` (src/session_manager.py lines 16-28):
returns the session and the possibly-extended store. -/
def get_session (st : Store) (u now : Nat) : Session × Store :=
  match st u with
  | some s => (s, st)
  | none => (defaultSession now, setStore st u (defaultSession now))

/-- Model of `SessionManager.clear_session` (src/session_manager.py lines 72-76). -/
def clear_session (st : Store) (u : Nat) : Store :=
  fun v => if v = u then none else st v

/-- Model of `SessionManager.update_task_description` (lines 30-34). -/
def update_task_description (st : Store) (u now : Nat) (d : List Char) :
    Store :=
  let p := get_session st u now
  setStore p.2 u { p.1 with task_description := d }

/-- Model of `SessionManager.set_clarification_questions` (lines 36-40). -/
def set_clarification_questions (st : Store) (u now : Nat)
    (qs : List (List Char)) : Store :=
  let p := get_session st u now
  setStore p.2 u { p.1 with clarification_questions := qs }

/-- Model of `SessionManager.add_answer` (lines 42-46): dict assignment
`session["answers"][question] = answer`. -/
def add_answer (st : Store) (u now : Nat) (question answer : List Char) :
    Store :=
  let p := get_session st u now
  setStore p.2 u { p.1 with answers := dictSet p.1.answers question answer }

/-- Model of `SessionManager.set_recommendations` (lines 48-52). -/
def set_recommendations (st : Store) (u now : Nat)
    (r : RecommendationRecord) : Store :=
  let p := get_session st u now
  setStore p.2 u { p.1 with recommendations := some r }

/-- The aiogram FSM states (src/states.py). -/
inductive DialogueState where
  | waiting_for_task_description
  | waiting_for_clarification_answers
  | showing_recommendations
  | waiting_for_recommendation_decision
  | prompt_generated
  | editing_section
  | adding_requirement
  | removing_requirement
deriving DecidableEq

/-- Outbound replies the modelled handlers can emit. -/
inductive Reply where
  | validation_error
  | task_received
  | questions_list (qs : List (List Char))
  | answer_accepted (answered total : Nat)
  | answers_received
  | recommendations_ready
  | no_questions_error
  | error_generic
deriving DecidableEq

/-- Model of `process_task_description` (src/main.py lines 371-401).  `text` is the
inbound message text (`[]` models both `None` and `""`); `gen` is the
outcome of the external `generate_clarification_questions` call
(`Except.error` models a raised exception). -/
def process_task_description (st : Store) (u now : Nat) (text : List Char)
    (gen : Except Unit (List (List Char))) :
    Store × DialogueState × List Reply :=
  if text.isEmpty || (pyStrip text).length < 10 then
    (st, .waiting_for_task_description, [.validation_error])
  else
    let st1 := update_task_description st u now text
    match gen with
    | .ok qs =>
      (set_clarification_questions st1 u now qs,
       .waiting_for_clarification_answers,
       [.task_received, .questions_list qs])
    | .error _ =>
      (st1, .waiting_for_task_description, [.task_received, .error_generic])

/-- Model of `process_clarification_answer` (src/main.py lines 404-479).  `recGen`
is the outcome of the external `generate_recommendations` call as a
function of the answers dict it is handed.  The handler fires in state
`waiting_for_clarification_answers`; the returned state is the state the
dialogue is in afterwards. -/
def process_clarification_answer (st : Store) (u now : Nat)
    (text : List Char)
    (recGen : List (List Char × List Char) →
      Except Unit RecommendationRecord) :
    Store × DialogueState × List Reply :=
  let p := get_session st u now
  let session := p.1
  let st0 := p.2
  let questions := session.clarification_questions
  let answers := session.answers
  if questions.isEmpty then
    (st0, .waiting_for_clarification_answers, [.no_questions_error])
  else if questions.length ≤ answers.length then
    match recGen answers with
    | .ok r =>
      (set_recommendations st0 u now r, .showing_recommendations,
       [.answers_received, .recommendations_ready])
    | .error _ =>
      (st0, .waiting_for_clarification_answers,
       [.answers_received, .error_generic])
  else
    let currentQuestion := questions.getD answers.length []
    let st1 := add_answer st0 u now currentQuestion text
    if answers.length + 1 < questions.length then
      (st1, .waiting_for_clarification_answers,
       [.answer_accepted (answers.length + 1) questions.length])
    else
      let answersNow := (get_session st1 u now).1.answers
      match recGen answersNow with
      | .ok r =>
        (set_recommendations st1 u now r, .showing_recommendations,
         [.answers_received, .recommendations_ready])
      | .error _ =>
        (st1, .waiting_for_clarification_answers,
         [.answers_received, .error_generic])

/-- Feeding a list of inbound messages, one after the other, through
`process_clarification_answer` (the `waiting_for_clarification_answers`
loop), stopping as soon as the state leaves
`waiting_for_clarification_answers`. -/
def runAnswers (u now : Nat)
    (recGen : List (List Char × List Char) →
      Except Unit RecommendationRecord) :
    Store × DialogueState → List (List Char) → Store × DialogueState
  | acc, [] => acc
  | (st, ds), m :: ms =>
    if ds = .waiting_for_clarification_answers then
      let r := process_clarification_answer st u now m recGen
      runAnswers u now recGen (r.1, r.2.1) ms
    else
      (st, ds)

/-! ## Auxiliary notions used by the theorems -/

/-- Whether an attempt outcome is an `OpenAIError` (the retried class). -/
def AttemptOutcome.isService : AttemptOutcome → Bool
  | .serviceError _ => true
  | _ => false

/-- Ordered-dict lookup (Python `d[k]` read access). -/
def dictLookup : List (List Char × List Char) → List Char →
    Option (List Char)
  | [], _ => none
  | (k', v') :: t, k => if k' = k then some v' else dictLookup t k

/-- The well-formed recognized heading lines of a document, in order. -/
def headingLines (doc : List Char) : List (List Char) :=
  (splitNl doc).filter isSectionHeading

/-- All characters are Python whitespace. -/
def allWS (s : List Char) : Bool := s.all isPySpace

/-- Drop the trailing run of empty lines. -/
def dropEmptyTail (xs : List (List Char)) : List (List Char) :=
  (xs.reverse.dropWhile List.isEmpty).reverse

/-- The lines a section contributes to the rebuilt prompt, before the
final trim: its heading, its body lines, and the separating blank. -/
def lineBlock (kv : List Char × List Char) : List (List Char) :=
  kv.1 :: (splitNl kv.2 ++ [[]])

/-- Well-formedness of a section key: a recognized heading line that is
already stripped and contains no newline (as every key produced by
`parse_sections` is). -/
def WFKey (k : List Char) : Prop :=
  isSectionHeading k = true ∧ pyStrip k = k ∧ '\n' ∉ k

/-- Well-formedness of a sections dict sufficient for the
parse-of-rebuild roundtrip: nonempty; well-formed keys; distinct keys; no
body line is itself a recognized heading; bodies carry no trailing
whitespace. -/
def WFDict (d : List (List Char × List Char)) : Prop :=
  d ≠ [] ∧
  (∀ kv ∈ d, WFKey kv.1) ∧
  (dictKeys d).Nodup ∧
  (∀ kv ∈ d, ∀ l ∈ splitNl kv.2, isSectionHeading l = false) ∧
  (∀ kv ∈ d, stripR kv.2 = kv.2)

/-- The shape of every entry produced by `parse_sections`: well-formed
key, fully stripped body, and no heading-like body line. -/
def WFEntry (kv : List Char × List Char) : Prop :=
  WFKey kv.1 ∧ pyStrip kv.2 = kv.2 ∧
  ∀ l ∈ splitNl kv.2, isSectionHeading l = false

/-! ## Theorems -/

theorem setStore_self (st : Store) (u : Nat) (s : Session) :
    setStore st u s u = some s := by
  simp [setStore]

theorem get_session_clear (st : Store) (u now : Nat) :
    get_session (clear_session st u) u now =
      (defaultSession now,
       setStore (clear_session st u) u (defaultSession now)) := by
  simp [get_session, clear_session]

/-- C9: clearing a user's session removes it entirely; the next
`get_session` returns a fresh default session: empty task description, no
clarification questions, no answers, empty recommendations, empty current
prompt, and an edit counter of zero. -/
theorem clear_session_then_get_fresh (st : Store) (u now : Nat) :
    (get_session (clear_session st u) u now).1 = defaultSession now ∧
    (get_session (clear_session st u) u now).1.task_description = [] ∧
    (get_session (clear_session st u) u now).1.clarification_questions = [] ∧
    (get_session (clear_session st u) u now).1.answers = [] ∧
    (get_session (clear_session st u) u now).1.recommendations = none ∧
    (get_session (clear_session st u) u now).1.current_prompt = [] ∧
    (get_session (clear_session st u) u now).1.edited_count = 0 := by
  rw [get_session_clear]
  simp [defaultSession]

theorem get_session_setStore (st : Store) (u now : Nat) (s : Session) :
    get_session (setStore st u s) u now = (s, setStore st u s) := by
  simp [get_session, setStore]

/-- C8: in `waiting_for_task_description`, a text whose stripped length is
below 10 leaves the store and state unchanged and yields the validation
reply; a text of stripped length at least 10 records the description,
stores the generated clarification questions, and moves the state to
`waiting_for_clarification_answers` (given the question-generation call
returns). -/
theorem process_task_description_spec (st : Store) (u now : Nat)
    (text : List Char) (gen : Except Unit (List (List Char))) :
    ((pyStrip text).length < 10 →
      process_task_description st u now text gen =
        (st, .waiting_for_task_description, [.validation_error])) ∧
    (∀ qs, 10 ≤ (pyStrip text).length → gen = .ok qs →
      (process_task_description st u now text gen).2.1 =
        .waiting_for_clarification_answers ∧
      (get_session (process_task_description st u now text gen).1 u
        now).1.task_description = text ∧
      (get_session (process_task_description st u now text gen).1 u
        now).1.clarification_questions = qs) := by
  constructor
  · intro h
    simp [process_task_description, h]
  · intro qs hlen hgen
    have hne : text.isEmpty = false := by
      cases text with
      | nil => simp [pyStrip, stripL, stripR] at hlen
      | cons c t => simp
    have hcond : (text.isEmpty || decide ((pyStrip text).length < 10)) =
        false := by
      simp [hne]
      omega
    simp only [process_task_description, hcond, Bool.false_eq_true,
      if_false, hgen]
    simp [set_clarification_questions, update_task_description,
      get_session_setStore, setStore_self]

/-- Witness for C8 at concrete inputs. -/
theorem process_task_description_spec_witness :
    process_task_description (fun _ => none) 0 0 (lit ("short")) (.ok []) =
      ((fun _ => none : Store), .waiting_for_task_description,
        [.validation_error]) ∧
    ((process_task_description (fun _ => none) 0 0
        (lit ("a big task description")) (.ok [lit ("q?")])).2.1 =
      .waiting_for_clarification_answers ∧
     (get_session (process_task_description (fun _ => none) 0 0
        (lit ("a big task description")) (.ok [lit ("q?")])).1 0
        0).1.task_description = lit ("a big task description") ∧
     (get_session (process_task_description (fun _ => none) 0 0
        (lit ("a big task description")) (.ok [lit ("q?")])).1 0
        0).1.clarification_questions = [lit ("q?")]) :=
  ⟨(process_task_description_spec (fun _ => none) 0 0 (lit ("short"))
      (.ok [])).1 (by decide),
   (process_task_description_spec (fun _ => none) 0 0
      (lit ("a big task description")) (.ok [lit ("q?")])).2
      [lit ("q?")] (by decide) rfl⟩

theorem foldl_pushOpt_eq_filterMap :
    ∀ (l : List (List Char)) (acc : List (List Char)),
      l.foldl (fun a x =>
        match questionOfLine x with
        | some q => a ++ [q]
        | none => a) acc = acc ++ l.filterMap questionOfLine := by
  intro l
  induction l with
  | nil => intro acc; simp
  | cons x t ih =>
    intro acc
    cases hfx : questionOfLine x with
    | some q => simp [List.foldl_cons, hfx, ih, List.filterMap_cons]
    | none => simp [List.foldl_cons, hfx, ih, List.filterMap_cons]

/-- C6: the extracted questions are exactly, in line order, the processed
forms of those lines of the (trimmed) response that, once trimmed, start
with a digit or a dash and whose stripped remainder ends in a question
mark; when no line qualifies, the whole trimmed response is the single
question.  On `"1. What is X?\n2. Why Y?"` this gives
`["What is X?", "Why Y?"]`, and a marker-free text is returned whole. -/
theorem extract_questions_spec :
    (∀ resp, extract_questions resp =
      (if ((splitNl (pyStrip resp)).filterMap questionOfLine).isEmpty
       then [pyStrip resp]
       else (splitNl (pyStrip resp)).filterMap questionOfLine)) ∧
    extract_questions (lit ("1. What is X?\n2. Why Y?")) =
      [lit ("What is X?"), lit ("Why Y?")] ∧
    extract_questions (lit ("no question marks here")) =
      [lit ("no question marks here")] := by
  refine ⟨fun resp => ?_, by decide, by decide⟩
  simp only [extract_questions, foldl_pushOpt_eq_filterMap,
    List.nil_append]

/-- C5 counterexample: on a response whose brace-delimited substring fails
to parse as JSON, `tech_stack` is the fixed placeholder, not the first 200
characters of the raw text — so the claimed fallback shape is wrong for
the parse-failure branch. -/
theorem normalize_parse_failure_counterexample :
    (normalize_recommendations (fun _ => Option.none)
      (lit ("\x7bx\x7d"))).tech_stack = needsClarification ∧
    needsClarification ≠ (lit ("\x7bx\x7d")).take 200 := by
  constructor
  · decide
  · decide

/-- C5 amended: when the response has no usable brace pair the fallback
record has `tech_stack` equal to the first 200 characters (whole text if
shorter), placeholders for architecture/scalability/compliance, empty
`key_features` and `risks`, and the verbatim response as summary; when a
brace pair is found but JSON parsing fails, the record is the same except
that `tech_stack` is also the placeholder. -/
theorem normalize_fallback_spec
    (jl : List Char → Option RecommendationRecord) (raw : List Char) :
    (¬(pyFind raw '{' ≠ -1 ∧ pyFind raw '{' < pyRFind raw '}' + 1) →
      normalize_recommendations jl raw = fallbackNoJson raw ∧
      (normalize_recommendations jl raw).tech_stack = raw.take 200 ∧
      (normalize_recommendations jl raw).architecture = needsClarification ∧
      (normalize_recommendations jl raw).scalability = needsClarification ∧
      (normalize_recommendations jl raw).compliance = needsClarification ∧
      (normalize_recommendations jl raw).key_features = [] ∧
      (normalize_recommendations jl raw).risks = [] ∧
      (normalize_recommendations jl raw).recommendation_summary = raw) ∧
    ((pyFind raw '{' ≠ -1 ∧ pyFind raw '{' < pyRFind raw '}' + 1) →
      jl (pySlice raw (pyFind raw '{') (pyRFind raw '}' + 1)) = none →
      normalize_recommendations jl raw = fallbackBadJson raw ∧
      (normalize_recommendations jl raw).tech_stack = needsClarification ∧
      (normalize_recommendations jl raw).key_features = [] ∧
      (normalize_recommendations jl raw).risks = [] ∧
      (normalize_recommendations jl raw).recommendation_summary = raw) := by
  have htake : (if 200 < raw.length then raw.take 200 else raw) =
      raw.take 200 := by
    split
    · rfl
    · rw [List.take_of_length_le]
      omega
  constructor
  · intro h
    have hres : normalize_recommendations jl raw = fallbackNoJson raw := by
      simp only [normalize_recommendations]
      rw [if_neg h]
    refine ⟨hres, ?_, ?_, ?_, ?_, ?_, ?_, ?_⟩ <;>
      simp [hres, fallbackNoJson, htake]
  · intro h hjl
    have hres : normalize_recommendations jl raw = fallbackBadJson raw := by
      simp only [normalize_recommendations]
      rw [if_pos h, hjl]
    refine ⟨hres, ?_, ?_, ?_, ?_⟩ <;> simp [hres, fallbackBadJson]

/-- Witness for the amended C5 at concrete inputs. -/
theorem normalize_fallback_spec_witness :
    (normalize_recommendations (fun _ => Option.none)
      (lit ("plain text")) = fallbackNoJson (lit ("plain text")) ∧
     (normalize_recommendations (fun _ => Option.none)
      (lit ("plain text"))).tech_stack = (lit ("plain text")).take 200) ∧
    (normalize_recommendations (fun _ => Option.none)
      (lit ("\x7bbad\x7d")) = fallbackBadJson (lit ("\x7bbad\x7d"))) :=
  ⟨⟨((normalize_fallback_spec (fun _ => Option.none)
        (lit ("plain text"))).1 (by decide)).1,
    ((normalize_fallback_spec (fun _ => Option.none)
        (lit ("plain text"))).1 (by decide)).2.1⟩,
   ((normalize_fallback_spec (fun _ => Option.none)
        (lit ("\x7bbad\x7d"))).2 (by decide) rfl).1⟩

theorem waits_shift (delay k : Nat) :
    delay :: (List.range k).map (fun i => delay * 2 * 2 ^ i) =
      (List.range (k + 1)).map (fun i => delay * 2 ^ i) := by
  rw [List.range_succ_eq_map]
  simp only [List.map_cons, List.map_map, pow_zero, Nat.mul_one]
  refine congrArg _ ?_
  refine List.map_congr_left fun i _ => ?_
  simp only [Function.comp_apply, pow_succ]
  ring

theorem retryLoop_success (k : Nat) :
    ∀ (outcomes : Nat → AttemptOutcome) (attempt delay fuel : Nat)
      (t : List Char),
      k + 1 ≤ fuel →
      (∀ i, i < k → (outcomes (attempt + i)).isService = true) →
      outcomes (attempt + k) = .success t →
      retryLoop outcomes attempt delay fuel =
        ⟨.ok t, k + 1, (List.range k).map (fun i => delay * 2 ^ i)⟩ := by
  induction k with
  | zero =>
    intro outcomes attempt delay fuel t hfuel _ hsucc
    obtain ⟨f, rfl⟩ : ∃ f, fuel = f + 1 := ⟨fuel - 1, by omega⟩
    simp only [Nat.add_zero] at hsucc
    simp [retryLoop, hsucc]
  | succ k ih =>
    intro outcomes attempt delay fuel t hfuel hserv hsucc
    obtain ⟨f, rfl⟩ : ∃ f, fuel = f + 1 := ⟨fuel - 1, by omega⟩
    have h0 := hserv 0 (by omega)
    simp only [Nat.add_zero] at h0
    cases hout : outcomes attempt with
    | success t' => rw [hout] at h0; simp [AttemptOutcome.isService] at h0
    | unexpectedError e =>
      rw [hout] at h0; simp [AttemptOutcome.isService] at h0
    | serviceError e =>
      have hf : f ≠ 0 := by omega
      have hrec := ih outcomes (attempt + 1) (delay * 2) f t (by omega)
        (fun i hi => by
          have := hserv (i + 1) (by omega)
          rwa [show attempt + (i + 1) = attempt + 1 + i by omega] at this)
        (by rwa [show attempt + 1 + k = attempt + (k + 1) by omega])
      simp only [retryLoop, hout, hf, if_false, hrec, waits_shift]

theorem retryLoop_step_service (outcomes : Nat → AttemptOutcome)
    (attempt delay f e : Nat)
    (h : outcomes attempt = .serviceError e) (hf : f ≠ 0) :
    retryLoop outcomes attempt delay (f + 1) =
      ⟨(retryLoop outcomes (attempt + 1) (delay * 2) f).result,
       (retryLoop outcomes (attempt + 1) (delay * 2) f).calls + 1,
       delay :: (retryLoop outcomes (attempt + 1) (delay * 2) f).waits⟩ := by
  obtain ⟨g, rfl⟩ : ∃ g, f = g + 1 := ⟨f - 1, by omega⟩
  conv_lhs => rw [retryLoop]
  rw [h]
  simp

theorem retryLoop_all_fail (fuel : Nat) :
    ∀ (outcomes : Nat → AttemptOutcome) (attempt delay : Nat)
      (e : Nat → Nat),
      1 ≤ fuel →
      (∀ i, i < fuel → outcomes (attempt + i) = .serviceError (e i)) →
      retryLoop outcomes attempt delay fuel =
        ⟨.serviceRaise (e (fuel - 1)), fuel,
          (List.range (fuel - 1)).map (fun i => delay * 2 ^ i)⟩ := by
  induction fuel with
  | zero => omega
  | succ f ih =>
    intro outcomes attempt delay e _ hserv
    have h0 := hserv 0 (by omega)
    simp only [Nat.add_zero] at h0
    by_cases hf : f = 0
    · subst hf
      simp [retryLoop, h0]
    · have hrec := ih outcomes (attempt + 1) (delay * 2)
        (fun i => e (i + 1)) (by omega)
        (fun i hi => by
          have := hserv (i + 1) (by omega)
          rwa [show attempt + (i + 1) = attempt + 1 + i by omega] at this)
      rw [retryLoop_step_service outcomes attempt delay f (e 0) h0 hf,
        hrec]
      simp only [waits_shift]
      have hfe : f - 1 + 1 = f := by omega
      rw [hfe]
      simp

theorem retryLoop_unexpected (j : Nat) :
    ∀ (outcomes : Nat → AttemptOutcome) (attempt delay fuel e : Nat),
      j + 1 ≤ fuel →
      (∀ i, i < j → (outcomes (attempt + i)).isService = true) →
      outcomes (attempt + j) = .unexpectedError e →
      retryLoop outcomes attempt delay fuel =
        ⟨.unexpectedRaise e, j + 1,
          (List.range j).map (fun i => delay * 2 ^ i)⟩ := by
  induction j with
  | zero =>
    intro outcomes attempt delay fuel e hfuel _ hun
    obtain ⟨f, rfl⟩ : ∃ f, fuel = f + 1 := ⟨fuel - 1, by omega⟩
    simp only [Nat.add_zero] at hun
    simp [retryLoop, hun]
  | succ j ih =>
    intro outcomes attempt delay fuel e hfuel hserv hun
    obtain ⟨f, rfl⟩ : ∃ f, fuel = f + 1 := ⟨fuel - 1, by omega⟩
    have h0 := hserv 0 (by omega)
    simp only [Nat.add_zero] at h0
    cases hout : outcomes attempt with
    | success t' => rw [hout] at h0; simp [AttemptOutcome.isService] at h0
    | unexpectedError e' =>
      rw [hout] at h0; simp [AttemptOutcome.isService] at h0
    | serviceError e' =>
      have hf : f ≠ 0 := by omega
      have hrec := ih outcomes (attempt + 1) (delay * 2) f e (by omega)
        (fun i hi => by
          have := hserv (i + 1) (by omega)
          rwa [show attempt + (i + 1) = attempt + 1 + i by omega] at this)
        (by rwa [show attempt + 1 + j = attempt + (j + 1) by omega])
      rw [retryLoop_step_service outcomes attempt delay f e' hout hf,
        hrec, RetryTrace.mk.injEq]
      exact ⟨rfl, rfl, waits_shift delay j⟩

/-- C7: with `maxAttempts ≥ 1` attempts and base delay `d`, if the first
`k−1` requests raise `OpenAIError` and the k-th succeeds, the call makes
exactly `k` requests and `k−1` waits of `d, 2d, 4d, …` and returns the
text; if all `maxAttempts` requests raise `OpenAIError`, the last error
propagates after exactly `maxAttempts` requests with no wait after the
final one; a non-`OpenAIError` exception propagates immediately on its
attempt, with no retry and no additional wait. -/
theorem call_with_retry_policy (outcomes : Nat → AttemptOutcome)
    (maxAttempts d : Nat) :
    (∀ k t, 1 ≤ k → k ≤ maxAttempts →
      (∀ i, i < k - 1 → (outcomes i).isService = true) →
      outcomes (k - 1) = .success t →
      call_with_retry outcomes maxAttempts d =
        ⟨.ok t, k, (List.range (k - 1)).map (fun i => d * 2 ^ i)⟩) ∧
    (∀ e : Nat → Nat, 1 ≤ maxAttempts →
      (∀ i, i < maxAttempts → outcomes i = .serviceError (e i)) →
      call_with_retry outcomes maxAttempts d =
        ⟨.serviceRaise (e (maxAttempts - 1)), maxAttempts,
          (List.range (maxAttempts - 1)).map (fun i => d * 2 ^ i)⟩) ∧
    (∀ j e, j < maxAttempts →
      (∀ i, i < j → (outcomes i).isService = true) →
      outcomes j = .unexpectedError e →
      call_with_retry outcomes maxAttempts d =
        ⟨.unexpectedRaise e, j + 1,
          (List.range j).map (fun i => d * 2 ^ i)⟩) := by
  refine ⟨fun k t hk hkm hserv hsucc => ?_, fun e h1 hserv => ?_,
    fun j e hj hserv hun => ?_⟩
  · have := retryLoop_success (k - 1) outcomes 0 d maxAttempts t
      (by omega)
      (fun i hi => by simpa using hserv i hi)
      (by simpa using hsucc)
    rw [call_with_retry, this]
    have hke : k - 1 + 1 = k := by omega
    rw [hke]
  · exact retryLoop_all_fail maxAttempts outcomes 0 d e h1
      (fun i hi => by simpa using hserv i hi)
  · exact retryLoop_unexpected j outcomes 0 d maxAttempts e (by omega)
      (fun i hi => by simpa using hserv i hi) (by simpa using hun)

/-- Witness for C7: two transient failures then success with three
attempts and base delay 1 gives three calls and waits `[1, 2]`; three
straight failures propagate the last error with waits `[1, 2]`; an
immediate unexpected error propagates with one call and no wait. -/
theorem call_with_retry_policy_witness :
    call_with_retry
      (fun i => if i < 2 then .serviceError i else .success (lit ("ok")))
      3 1 = ⟨.ok (lit ("ok")), 3, [1, 2]⟩ ∧
    call_with_retry (fun i => .serviceError i) 3 1 =
      ⟨.serviceRaise 2, 3, [1, 2]⟩ ∧
    call_with_retry (fun _ => .unexpectedError 7) 3 1 =
      ⟨.unexpectedRaise 7, 1, []⟩ := by
  refine ⟨?_, ?_, ?_⟩
  · have := (call_with_retry_policy
      (fun i => if i < 2 then .serviceError i else .success (lit ("ok")))
      3 1).1 3 (lit ("ok")) (by decide) (by decide)
      (fun i hi => by interval_cases i <;> decide) (by decide)
    simpa using this
  · have := (call_with_retry_policy (fun i => .serviceError i) 3 1).2.1
      (fun i => i) (by decide) (fun i hi => rfl)
    simpa using this
  · have := (call_with_retry_policy (fun _ => .unexpectedError 7) 3 1).2.2
      0 7 (by decide) (fun i hi => by omega) rfl
    simpa using this

theorem dictSet_fresh (k : List Char) (v : List Char) :
    ∀ d, k ∉ dictKeys d → dictSet d k v = d ++ [(k, v)] := by
  intro d
  induction d with
  | nil => intro _; rfl
  | cons kv t ih =>
    intro h
    simp only [dictKeys, List.map_cons, List.mem_cons] at h
    push_neg at h
    cases kv with
    | mk k' v' =>
      simp only at h
      have hne : ¬k' = k := fun he => h.1 he.symm
      simp only [dictSet, if_neg hne]
      rw [ih h.2]
      simp

theorem dictKeys_append (d e : List (List Char × List Char)) :
    dictKeys (d ++ e) = dictKeys d ++ dictKeys e := by
  simp [dictKeys]

theorem dictKeys_dictSet_fresh (k v : List Char)
    (d : List (List Char × List Char)) (h : k ∉ dictKeys d) :
    dictKeys (dictSet d k v) = dictKeys d ++ [k] := by
  rw [dictSet_fresh k v d h, dictKeys_append]
  rfl

theorem nodup_split_not_mem {α : Type} {a c : List α} {s : α}
    (h : (a ++ ([s] ++ c)).Nodup) : s ∉ a := by
  rw [List.nodup_append] at h
  exact fun hm => h.2.2 hm (by simp)

theorem parseLoop_keys :
    ∀ (lines : List (List Char)) (secs : List (List Char × List Char))
      (cur : Option (List Char)) (content : List (List Char)),
      (dictKeys secs ++ cur.elim [] (fun k => [k]) ++
        (lines.filter isSectionHeading).map pyStrip).Nodup →
      dictKeys (parseFinish (parseLoop secs cur content lines)) =
        dictKeys secs ++ cur.elim [] (fun k => [k]) ++
          (lines.filter isSectionHeading).map pyStrip := by
  intro lines
  induction lines with
  | nil =>
    intro secs cur content hnd
    cases cur with
    | none => simp [parseLoop, parseFinish]
    | some s =>
      simp only [parseLoop, parseFinish]
      simp only [List.filter_nil, List.map_nil, List.append_nil,
        Option.elim] at hnd ⊢
      have hs : s ∉ dictKeys secs := by
        have h' : (dictKeys secs ++ ([s] ++ ([] : List (List Char)))).Nodup := by
          simpa using hnd
        exact nodup_split_not_mem h'
      rw [dictKeys_dictSet_fresh s _ _ hs]
  | cons line rest ih =>
    intro secs cur content hnd
    by_cases hl : isSectionHeading line = true
    · cases cur with
      | none =>
        simp only [parseLoop, hl, if_true]
        have := ih secs (some (pyStrip line)) []
          (by simpa [hl, List.filter_cons] using hnd)
        simp only [Option.elim] at this ⊢
        rw [this]
        simp [hl, List.filter_cons]
      | some s =>
        simp only [parseLoop, hl, if_true]
        have hs : s ∉ dictKeys secs := by
          have h' : (dictKeys secs ++ ([s] ++
              (((line :: rest).filter isSectionHeading).map pyStrip))).Nodup := by
            simpa [Option.elim, List.append_assoc] using hnd
          exact nodup_split_not_mem h'
        have hkeys := dictKeys_dictSet_fresh s (pyStrip (joinNl content))
          secs hs
        have hnd' : (dictKeys (dictSet secs s (pyStrip (joinNl content))) ++
            (some (pyStrip line)).elim [] (fun k => [k]) ++
            ((rest.filter isSectionHeading).map pyStrip)).Nodup := by
          rw [hkeys]
          simp only [Option.elim]
          have h2 : dictKeys secs ++ (some s).elim [] (fun k => [k]) ++
              ((line :: rest).filter isSectionHeading).map pyStrip =
              dictKeys secs ++ [s] ++ [pyStrip line] ++
                (rest.filter isSectionHeading).map pyStrip := by
            simp [Option.elim, hl, List.filter_cons]
          rw [h2] at hnd
          simpa [List.append_assoc] using hnd
        have := ih (dictSet secs s (pyStrip (joinNl content)))
          (some (pyStrip line)) [] hnd'
        rw [this, hkeys]
        simp [Option.elim, hl, List.filter_cons]
    · have hl' : isSectionHeading line = false := by
        simpa using hl
      cases cur with
      | none =>
        simp only [parseLoop, hl', Bool.false_eq_true, if_false]
        have := ih secs none content
          (by simpa [hl', List.filter_cons] using hnd)
        simpa [hl', List.filter_cons] using this
      | some s =>
        simp only [parseLoop, hl', Bool.false_eq_true, if_false]
        have := ih secs (some s) (content ++ [line])
          (by simpa [hl', List.filter_cons] using hnd)
        simpa [hl', List.filter_cons] using this

/-- C1 counterexample: a document with two well-formed recognized heading
lines whose section list has a single entry (the second heading collides
with the first in the dict), and whose entry is the trimmed heading, not
the original line. -/
theorem get_section_list_counterexample :
    headingLines (lit (" # GOAL\nx\n# GOAL\ny")) =
      [lit (" # GOAL"), lit ("# GOAL")] ∧
    get_section_list (lit (" # GOAL\nx\n# GOAL\ny")) = [lit ("# GOAL")] := by
  constructor
  · decide
  · decide

/-- C1 amended: for a document with at least one recognized heading line,
whose heading lines are pairwise distinct after trimming,
`get_section_list` returns exactly the trimmed heading lines, one per
heading, in their original order. -/
theorem get_section_list_spec (doc : List Char)
    (h1 : headingLines doc ≠ [])
    (h2 : ((headingLines doc).map pyStrip).Nodup) :
    get_section_list doc = (headingLines doc).map pyStrip := by
  have hkeys := parseLoop_keys (splitNl doc) [] none []
    (by simpa [dictKeys, Option.elim, headingLines] using h2)
  simp only [dictKeys, List.map_nil, Option.elim, List.nil_append] at hkeys
  have hne : ¬(parseFinish (parseLoop [] none [] (splitNl doc))).isEmpty =
      true := by
    intro h0
    rw [List.isEmpty_iff] at h0
    rw [h0] at hkeys
    simp only [dictKeys, List.map_nil] at hkeys
    exact h1 (by
      have := hkeys.symm
      rw [List.map_eq_nil_iff] at this
      exact this)
  simp only [get_section_list, parse_sections, hne, if_false]
  exact hkeys

/-- Witness for the amended C1 at a concrete two-section document. -/
theorem get_section_list_spec_witness :
    get_section_list (lit ("# GOAL\nx\n# REQUIREMENTS\ny")) =
      (headingLines (lit ("# GOAL\nx\n# REQUIREMENTS\ny"))).map pyStrip :=
  get_section_list_spec (lit ("# GOAL\nx\n# REQUIREMENTS\ny"))
    (by decide) (by decide)

theorem splitNl_ne_nil (s : List Char) : splitNl s ≠ [] := by
  cases s with
  | nil => simp [splitNl]
  | cons c t =>
    simp only [splitNl]
    split
    · simp
    · split <;> simp

theorem noNl_of_mem_splitNl :
    ∀ (s : List Char) (l : List Char), l ∈ splitNl s → '\n' ∉ l := by
  intro s
  induction s with
  | nil =>
    intro l hl
    simp [splitNl] at hl
    simp [hl]
  | cons c t ih =>
    intro l hl
    simp only [splitNl] at hl
    by_cases hc : c = '\n'
    · rw [if_pos hc] at hl
      rcases List.mem_cons.mp hl with h | h
      · simp [h]
      · exact ih l h
    · rw [if_neg hc] at hl
      cases hsp : splitNl t with
      | nil => exact absurd hsp (splitNl_ne_nil t)
      | cons h r =>
        rw [hsp] at hl
        rcases List.mem_cons.mp hl with h1 | h1
        · subst h1
          intro hmem
          rcases List.mem_cons.mp hmem with h2 | h2
          · exact hc h2.symm
          · exact ih h (by rw [hsp]; exact List.mem_cons_self _ _) h2
        · exact ih l (by rw [hsp]; exact List.mem_cons_of_mem _ h1)

theorem splitNl_noNl (s : List Char) (h : '\n' ∉ s) : splitNl s = [s] := by
  induction s with
  | nil => rfl
  | cons c t ih =>
    have hc : ¬c = '\n' := fun he => h (by simp [he])
    have ht : '\n' ∉ t := fun hm => h (List.mem_cons_of_mem _ hm)
    simp only [splitNl, if_neg hc, ih ht]

theorem splitNl_append_nl (a r : List Char) :
    splitNl (a ++ '\n' :: r) = splitNl a ++ splitNl r := by
  induction a with
  | nil => simp [splitNl]
  | cons c a' ih =>
    by_cases hc : c = '\n'
    · subst hc
      simp only [List.cons_append, splitNl, if_pos rfl, List.append_eq]
      rw [ih]
      simp
    · simp only [List.cons_append, splitNl, if_neg hc, List.append_eq]
      rw [ih]
      cases hsp : splitNl a' with
      | nil => exact absurd hsp (splitNl_ne_nil a')
      | cons h t =>
        simp [hsp]

theorem joinNl_splitNl (s : List Char) : joinNl (splitNl s) = s := by
  induction s with
  | nil => rfl
  | cons c t ih =>
    by_cases hc : c = '\n'
    · subst hc
      simp only [splitNl, if_pos rfl]
      cases hsp : splitNl t with
      | nil => exact absurd hsp (splitNl_ne_nil t)
      | cons h r =>
        rw [hsp] at ih
        simp only [joinNl, List.nil_append]
        rw [ih]
    · simp only [splitNl, if_neg hc]
      cases hsp : splitNl t with
      | nil => exact absurd hsp (splitNl_ne_nil t)
      | cons h r =>
        rw [hsp] at ih
        cases r with
        | nil =>
          simp only [joinNl] at ih ⊢
          rw [ih]
        | cons y t' =>
          simp only [joinNl, List.cons_append] at ih ⊢
          rw [← ih]

theorem splitNl_joinNl :
    ∀ (xs : List (List Char)), xs ≠ [] → (∀ l ∈ xs, '\n' ∉ l) →
      splitNl (joinNl xs) = xs := by
  intro xs
  induction xs with
  | nil => intro h; exact absurd rfl h
  | cons x t ih =>
    intro _ hall
    cases t with
    | nil =>
      simp only [joinNl]
      exact splitNl_noNl x (hall x (by simp))
    | cons y t' =>
      simp only [joinNl, splitNl_append_nl]
      rw [splitNl_noNl x (hall x (by simp)),
        ih (by simp) (fun l hl => hall l (List.mem_cons_of_mem _ hl))]
      rfl

theorem allWS_takeWhile (s : List Char) :
    allWS (s.takeWhile isPySpace) = true := by
  rw [allWS, List.all_eq_true]
  intro c hc
  exact List.mem_takeWhile_imp hc

theorem stripL_decomp (s : List Char) :
    s = s.takeWhile isPySpace ++ stripL s := by
  rw [stripL, List.takeWhile_append_dropWhile]

theorem allWS_reverse (s : List Char) : allWS s.reverse = allWS s := by
  simp [allWS]

theorem stripR_decomp (s : List Char) :
    ∃ w, allWS w = true ∧ s = stripR s ++ w := by
  refine ⟨(s.reverse.takeWhile isPySpace).reverse, ?_, ?_⟩
  · rw [allWS_reverse]
    exact allWS_takeWhile s.reverse
  · rw [stripR, ← List.reverse_append, List.takeWhile_append_dropWhile,
      List.reverse_reverse]

theorem pyStrip_decomp (s : List Char) :
    ∃ u w, allWS u = true ∧ allWS w = true ∧ s = u ++ pyStrip s ++ w := by
  obtain ⟨w, hw, hws⟩ := stripR_decomp (stripL s)
  refine ⟨s.takeWhile isPySpace, w, allWS_takeWhile s, hw, ?_⟩
  rw [List.append_assoc, pyStrip, ← hws]
  exact stripL_decomp s

theorem dropWhile_all_append {α : Type} {p : α → Bool} :
    ∀ (a b : List α), (∀ x ∈ a, p x = true) →
      (a ++ b).dropWhile p = b.dropWhile p := by
  intro a b
  induction a with
  | nil => intro _; rfl
  | cons c t ih =>
    intro h
    simp only [List.cons_append, List.dropWhile_cons, h c (by simp),
      if_true]
    exact ih (fun x hx => h x (List.mem_cons_of_mem _ hx))

theorem dropWhile_ne_nil_append {α : Type} {p : α → Bool} :
    ∀ (a b : List α), a.dropWhile p ≠ [] →
      (a ++ b).dropWhile p = a.dropWhile p ++ b := by
  intro a b
  induction a with
  | nil => intro h; exact absurd rfl h
  | cons c t ih =>
    intro h
    by_cases hc : p c = true
    · simp only [List.dropWhile_cons, hc, if_true] at h ⊢
      simp only [List.cons_append, List.dropWhile_cons, hc, if_true]
      exact ih h
    · rw [Bool.not_eq_true] at hc
      simp only [List.cons_append, List.dropWhile_cons, hc]
      simp

theorem stripL_ws_append (u t : List Char) (h : allWS u = true) :
    stripL (u ++ t) = stripL t := by
  rw [stripL, stripL, dropWhile_all_append u t]
  rw [allWS, List.all_eq_true] at h
  exact h

theorem stripR_append_ws (t w : List Char) (h : allWS w = true) :
    stripR (t ++ w) = stripR t := by
  rw [stripR, stripR, List.reverse_append, dropWhile_all_append]
  rw [← allWS_reverse] at h
  rw [allWS, List.all_eq_true] at h
  exact h

theorem stripL_eq_nil_iff (x : List Char) :
    stripL x = [] ↔ allWS x = true := by
  rw [stripL, List.dropWhile_eq_nil_iff, allWS, List.all_eq_true]

theorem pyStrip_append_ws (x w : List Char) (h : allWS w = true) :
    pyStrip (x ++ w) = pyStrip x := by
  by_cases hx : stripL x = []
  · have hxw : allWS x = true := (stripL_eq_nil_iff x).mp hx
    have h1 : stripL (x ++ w) = stripL w := stripL_ws_append x w hxw
    have h2 : stripL w = [] := (stripL_eq_nil_iff w).mpr h
    rw [pyStrip, h1, h2, pyStrip, hx]
  · rw [pyStrip, stripL, dropWhile_ne_nil_append x w hx, ← stripL,
      stripR_append_ws _ _ h, pyStrip]

theorem pyStrip_ws_pad (u x w : List Char) (hu : allWS u = true)
    (hw : allWS w = true) : pyStrip (u ++ x ++ w) = pyStrip x := by
  rw [List.append_assoc, pyStrip, stripL_ws_append u (x ++ w) hu,
    ← pyStrip, pyStrip_append_ws x w hw]

theorem stripR_idem (s : List Char) : stripR (stripR s) = stripR s := by
  rw [stripR, stripR, List.reverse_reverse, List.dropWhile_idempotent]

theorem stripR_of_last_non_ws (ys : List Char) (c : Char)
    (h : isPySpace c = false) : stripR (ys ++ [c]) = ys ++ [c] := by
  rw [stripR, List.reverse_append]
  simp only [List.reverse_cons, List.reverse_nil, List.nil_append,
    List.singleton_append, List.dropWhile_cons, h]
  simp

theorem dropWhile_head_false {p : Char → Bool} :
    ∀ (s : List Char) (c : Char) (t : List Char),
      s.dropWhile p = c :: t → p c = false := by
  intro s
  induction s with
  | nil => intro c t h; simp at h
  | cons a s' ih =>
    intro c t h
    by_cases ha : p a = true
    · rw [List.dropWhile_cons, if_pos ha] at h
      exact ih c t h
    · rw [List.dropWhile_cons, if_neg ha] at h
      cases h
      simpa using ha

theorem pyStrip_idem (s : List Char) : pyStrip (pyStrip s) = pyStrip s := by
  rw [pyStrip, pyStrip]
  have hL : stripL (stripR (stripL s)) = stripR (stripL s) := by
    cases hsl : stripL s with
    | nil => simp [stripR, stripL]
    | cons c0 y =>
      have hc0 : isPySpace c0 = false := dropWhile_head_false s c0 y hsl
      cases hsr : stripR (c0 :: y) with
      | nil => simp [stripL]
      | cons c t =>
        obtain ⟨w, _, hdec⟩ := stripR_decomp (c0 :: y)
        rw [hsr, List.cons_append] at hdec
        have hcc : c0 = c := by
          injection hdec
        rw [stripL, List.dropWhile_cons, ← hcc, hc0]
        simp
  rw [hL, stripR_idem]

theorem hasSub_nil_sub : ∀ (t : List Char), hasSub t [] = true := by
  intro t
  cases t with
  | nil => rfl
  | cons c t' => simp [hasSub, leadsWith]

theorem leadsWith_append_right :
    ∀ (sub s t : List Char), leadsWith sub s = true →
      leadsWith sub (s ++ t) = true := by
  intro sub
  induction sub with
  | nil => intro s t _; rfl
  | cons a x ih =>
    intro s t h
    cases s with
    | nil => simp [leadsWith] at h
    | cons b y =>
      simp only [leadsWith, Bool.and_eq_true] at h
      simp only [List.cons_append, leadsWith, Bool.and_eq_true]
      exact ⟨h.1, ih y t h.2⟩

theorem hasSub_append_right :
    ∀ (s t sub : List Char), hasSub s sub = true →
      hasSub (s ++ t) sub = true := by
  intro s
  induction s with
  | nil =>
    intro t sub h
    simp only [hasSub, List.isEmpty_iff] at h
    subst h
    exact hasSub_nil_sub t
  | cons c s' ih =>
    intro t sub h
    simp only [hasSub, Bool.or_eq_true] at h
    rcases h with h | h
    · simp only [List.cons_append, hasSub, Bool.or_eq_true]
      exact Or.inl (by
        have := leadsWith_append_right sub (c :: s') t h
        simpa using this)
    · simp only [List.cons_append, hasSub, Bool.or_eq_true]
      exact Or.inr (ih t sub h)

theorem hasSub_append_left :
    ∀ (u s sub : List Char), hasSub s sub = true →
      hasSub (u ++ s) sub = true := by
  intro u
  induction u with
  | nil => intro s sub h; exact h
  | cons c u' ih =>
    intro s sub h
    simp only [List.cons_append, hasSub, Bool.or_eq_true]
    exact Or.inr (ih s sub h)

theorem leadsWith_iff :
    ∀ (sub s : List Char),
      leadsWith sub s = true ↔ ∃ y, s = sub ++ y := by
  intro sub
  induction sub with
  | nil => intro s; simp [leadsWith]
  | cons a x ih =>
    intro s
    cases s with
    | nil =>
      simp [leadsWith]
    | cons b y =>
      simp only [leadsWith, Bool.and_eq_true, decide_eq_true_eq, ih y,
        List.cons_append, List.cons.injEq]
      constructor
      · rintro ⟨h1, y', h2⟩
        exact ⟨y', h1.symm, h2⟩
      · rintro ⟨y', h1, h2⟩
        exact ⟨h1.symm, y', h2⟩

theorem hasSub_iff :
    ∀ (s sub : List Char),
      hasSub s sub = true ↔ ∃ x y, s = x ++ sub ++ y := by
  intro s
  induction s with
  | nil =>
    intro sub
    simp only [hasSub, List.isEmpty_iff]
    constructor
    · rintro rfl
      exact ⟨[], [], rfl⟩
    · rintro ⟨x, y, hxy⟩
      rcases List.append_eq_nil.mp (List.append_eq_nil.mp hxy.symm).1
        with ⟨_, h2⟩
      exact h2
  | cons c t ih =>
    intro sub
    simp only [hasSub, Bool.or_eq_true, leadsWith_iff, ih]
    constructor
    · rintro (⟨y, hy⟩ | ⟨x, y, hxy⟩)
      · exact ⟨[], y, by simp [hy]⟩
      · exact ⟨c :: x, y, by simp [hxy]⟩
    · rintro ⟨x, y, hxy⟩
      cases x with
      | nil =>
        exact Or.inl ⟨y, by simpa using hxy⟩
      | cons d x' =>
        right
        refine ⟨x', y, ?_⟩
        simp only [List.cons_append, List.cons.injEq] at hxy
        exact hxy.2
    
theorem hasSub_reverse (s sub : List Char) (h : hasSub s sub = true) :
    hasSub s.reverse sub.reverse = true := by
  rw [hasSub_iff] at h ⊢
  obtain ⟨x, y, rfl⟩ := h
  exact ⟨y.reverse, x.reverse, by simp⟩

theorem hasSub_ws_head_drop (c0 : Char) (kt : List Char)
    (hc0 : isPySpace c0 = false) :
    ∀ (u t : List Char), allWS u = true →
      hasSub (u ++ t) (c0 :: kt) = true → hasSub t (c0 :: kt) = true := by
  intro u
  induction u with
  | nil => intro t _ h; exact h
  | cons a u' ih =>
    intro t hws h
    simp only [allWS, List.all_cons, Bool.and_eq_true] at hws
    simp only [List.cons_append, hasSub, Bool.or_eq_true] at h
    rcases h with h | h
    · exfalso
      rw [leadsWith_iff] at h
      obtain ⟨y, hy⟩ := h
      simp only [List.cons_append, List.cons.injEq] at hy
      rw [hy.1] at hws
      rw [hws.1] at hc0
      exact absurd hc0 (by simp)
    · exact ih t (by simpa [allWS] using hws.2) h

theorem hasSub_ws_tail_drop (cL : Char) (kr : List Char) (kw : List Char)
    (hrev : kw.reverse = cL :: kr) (hcL : isPySpace cL = false)
    (t w : List Char) (hws : allWS w = true)
    (h : hasSub (t ++ w) kw = true) : hasSub t kw = true := by
  have h1 : hasSub (w.reverse ++ t.reverse) kw.reverse = true := by
    have := hasSub_reverse (t ++ w) kw h
    rwa [List.reverse_append] at this
  rw [hrev] at h1
  have h2 := hasSub_ws_head_drop cL kr hcL w.reverse t.reverse
    (by rwa [allWS_reverse]) h1
  have h3 := hasSub_reverse t.reverse (cL :: kr) h2
  rwa [List.reverse_reverse, ← hrev, List.reverse_reverse] at h3

theorem stripL_pyStrip (s : List Char) :
    stripL (pyStrip s) = pyStrip s := by
  rw [pyStrip]
  cases hsl : stripL s with
  | nil => simp [stripR, stripL]
  | cons c0 y =>
    have hc0 : isPySpace c0 = false := dropWhile_head_false s c0 y hsl
    cases hsr : stripR (c0 :: y) with
    | nil => simp [stripL]
    | cons c t =>
      obtain ⟨w, _, hdec⟩ := stripR_decomp (c0 :: y)
      rw [hsr, List.cons_append] at hdec
      have hcc : c0 = c := by injection hdec
      rw [stripL, List.dropWhile_cons, ← hcc, hc0]
      simp

theorem stripR_pyStrip (s : List Char) :
    stripR (pyStrip s) = pyStrip s := by
  rw [pyStrip, stripR_idem]

theorem upperChar_ws (c : Char) (h : isPySpace c = true) :
    pyUpperChar c = c := by
  simp only [isPySpace, Bool.or_eq_true, decide_eq_true_eq] at h
  rcases h with ((((h | h) | h) | h) | h) | h <;> subst h <;> decide

theorem allWS_pyUpper (u : List Char) (h : allWS u = true) :
    allWS (pyUpper u) = true := by
  rw [allWS, List.all_eq_true] at h ⊢
  intro c hc
  rw [pyUpper, List.mem_map] at hc
  obtain ⟨a, ha, rfl⟩ := hc
  rw [upperChar_ws a (h a ha)]
  exact h a ha

theorem sectionKeywords_ends_bool :
    ∀ kw ∈ sectionKeywords,
      kw.head?.map isPySpace = some false ∧
      kw.reverse.head?.map isPySpace = some false := by
  decide

theorem sectionKeywords_ends :
    ∀ kw ∈ sectionKeywords,
      (∃ c0 kt, kw = c0 :: kt ∧ isPySpace c0 = false) ∧
      (∃ cL kr, kw.reverse = cL :: kr ∧ isPySpace cL = false) := by
  intro kw hkw
  obtain ⟨h1, h2⟩ := sectionKeywords_ends_bool kw hkw
  constructor
  · cases hk : kw with
    | nil => rw [hk] at h1; simp at h1
    | cons c t =>
      rw [hk] at h1
      simp only [List.head?_cons] at h1
      refine ⟨c, t, rfl, ?_⟩
      simpa using h1
  · cases hk : kw.reverse with
    | nil => rw [hk] at h2; simp at h2
    | cons c t =>
      rw [hk] at h2
      simp only [List.head?_cons] at h2
      refine ⟨c, t, rfl, ?_⟩
      simpa using h2

theorem heading_ws_pad (u l w : List Char) (hu : allWS u = true)
    (hw : allWS w = true) (h : isSectionHeading l = true) :
    isSectionHeading (u ++ l ++ w) = true := by
  rw [isSectionHeading, Bool.and_eq_true] at h ⊢
  constructor
  · rw [pyStrip_ws_pad u l w hu hw]
    exact h.1
  · rw [List.any_eq_true] at h ⊢
    obtain ⟨kw, hkw, hsub⟩ := h.2
    refine ⟨kw, hkw, ?_⟩
    rw [pyUpper, List.append_assoc, List.map_append, List.map_append,
      ← pyUpper, ← pyUpper, ← pyUpper]
    exact hasSub_append_left _ _ _
      (hasSub_append_right _ _ _ hsub)

theorem heading_of_ws_pad (u l w : List Char) (hu : allWS u = true)
    (hw : allWS w = true) (h : isSectionHeading (u ++ l ++ w) = false) :
    isSectionHeading l = false := by
  by_contra hc
  rw [Bool.not_eq_false] at hc
  rw [heading_ws_pad u l w hu hw hc] at h
  exact absurd h (by simp)

theorem heading_pyStrip (l : List Char) (h : isSectionHeading l = true) :
    isSectionHeading (pyStrip l) = true := by
  rw [isSectionHeading, Bool.and_eq_true] at h ⊢
  constructor
  · rw [pyStrip_idem]
    exact h.1
  · rw [List.any_eq_true] at h ⊢
    obtain ⟨kw, hkw, hsub⟩ := h.2
    refine ⟨kw, hkw, ?_⟩
    obtain ⟨⟨c0, kt, hkwc, hc0⟩, ⟨cL, kr, hkwr, hcL⟩⟩ :=
      sectionKeywords_ends kw hkw
    obtain ⟨u, w, hu, hw, hdec⟩ := pyStrip_decomp l
    rw [hdec] at hsub
    rw [List.append_assoc] at hsub
    rw [pyUpper, List.map_append, ← pyUpper, ← pyUpper] at hsub
    rw [hkwc] at hsub
    have h1 := hasSub_ws_head_drop c0 kt hc0 (pyUpper u)
      (pyUpper (pyStrip l ++ w)) (allWS_pyUpper u hu) hsub
    rw [← hkwc] at h1
    rw [pyUpper, List.map_append, ← pyUpper, ← pyUpper] at h1
    exact hasSub_ws_tail_drop cL kr kw hkwr hcL (pyUpper (pyStrip l))
      (pyUpper w) (allWS_pyUpper w hw) h1

theorem heading_key_shape (k : List Char) (hh : isSectionHeading k = true)
    (hs : pyStrip k = k) : ∃ t, k = '#' :: t := by
  rw [isSectionHeading, Bool.and_eq_true] at hh
  have := hh.1
  rw [leadsWith_iff] at this
  obtain ⟨y, hy⟩ := this
  rw [hs] at hy
  exact ⟨y, by simpa using hy⟩

theorem pad_left_mem :
    ∀ (u m l : List Char), allWS u = true → l ∈ splitNl m →
      ∃ p, allWS p = true ∧ p ++ l ∈ splitNl (u ++ m) := by
  intro u
  induction u with
  | nil => intro m l _ h; exact ⟨[], rfl, h⟩
  | cons c u' ih =>
    intro m l hws h
    simp only [allWS, List.all_cons, Bool.and_eq_true] at hws
    obtain ⟨p, hp, hmem⟩ := ih m l (by simpa [allWS] using hws.2) h
    by_cases hc : c = '\n'
    · subst hc
      refine ⟨p, hp, ?_⟩
      simp only [List.cons_append, splitNl, if_pos rfl]
      exact List.mem_cons_of_mem _ hmem
    · cases hsp : splitNl (u' ++ m) with
      | nil => exact absurd hsp (splitNl_ne_nil _)
      | cons h' r =>
        rw [hsp] at hmem
        rcases List.mem_cons.mp hmem with h1 | h1
        · refine ⟨c :: p, ?_, ?_⟩
          · rw [allWS, List.all_cons, hws.1, Bool.true_and]
            rw [allWS] at hp
            exact hp
          · simp only [List.cons_append, splitNl, if_neg hc,
              List.append_eq, hsp]
            rw [h1]
            exact List.mem_cons_self _ _
        · refine ⟨p, hp, ?_⟩
          simp only [List.cons_append, splitNl, if_neg hc,
            List.append_eq, hsp]
          exact List.mem_cons_of_mem _ h1

theorem splitNl_snoc_char (c : Char) (hc : ¬c = '\n') :
    ∀ (x : List Char) (ys : List (List Char)) (z : List Char),
      splitNl x = ys ++ [z] →
      splitNl (x ++ [c]) = ys ++ [z ++ [c]] := by
  intro x
  induction x with
  | nil =>
    intro ys z h
    simp only [splitNl] at h
    cases ys with
    | nil =>
      have hz : z = [] := by simpa using h.symm
      subst hz
      simp [splitNl, hc]
    | cons a t =>
      exfalso
      have := congrArg List.length h
      simp at this
  | cons a x' ih =>
    intro ys z h
    by_cases ha : a = '\n'
    · subst ha
      simp only [splitNl, if_pos rfl] at h
      cases ys with
      | nil =>
        exfalso
        simp only [List.nil_append] at h
        have h2 : splitNl x' = [] := by injection h
        exact splitNl_ne_nil x' h2
      | cons y0 ys' =>
        simp only [List.cons_append] at h
        injection h with h1 h2
        simp only [List.cons_append, splitNl, if_pos rfl, List.append_eq,
          ih ys' z h2]
        rw [← h1]
        simp
    · simp only [splitNl, if_neg ha] at h
      cases hsp : splitNl x' with
      | nil => exact absurd hsp (splitNl_ne_nil x')
      | cons h' r =>
        rw [hsp] at h
        simp only [List.cons_append, splitNl, if_neg ha, List.append_eq]
        cases hr : r.reverse with
        | nil =>
          have hrnil : r = [] := by
            have := congrArg List.reverse hr
            simpa using this
          subst hrnil
          cases ys with
          | nil =>
            have hz : z = a :: h' := by simpa using h.symm
            subst hz
            rw [ih [] h' (by simpa using hsp)]
            simp
          | cons y0 ys' =>
            exfalso
            have := congrArg List.length h
            simp at this
        | cons rl rr =>
          have hrdec : r = rr.reverse ++ [rl] := by
            have := congrArg List.reverse hr
            simpa using this
          rw [hrdec] at h
          have h2 : (a :: h') :: rr.reverse ++ [rl] = ys ++ [z] := by
            simpa using h
          have hinj := List.append_inj' h2 rfl
          have hys : ys = (a :: h') :: rr.reverse := by
            have := hinj.1
            exact this.symm
          have hz : z = rl := by
            have := hinj.2
            simpa using this.symm
          have hih := ih (h' :: rr.reverse) rl (by rw [hsp, hrdec]; simp)
          rw [hih, hys, hz]
          simp

theorem splitNl_reverse (s : List Char) :
    splitNl s.reverse = ((splitNl s).map List.reverse).reverse := by
  induction s with
  | nil => rfl
  | cons c t ih =>
    by_cases hc : c = '\n'
    · subst hc
      rw [List.reverse_cons,
        show (['\n'] : List Char) = '\n' :: [] from rfl,
        splitNl_append_nl, ih]
      simp [splitNl]
    · cases hsp : splitNl t with
      | nil => exact absurd hsp (splitNl_ne_nil t)
      | cons h r =>
        rw [hsp] at ih
        have hlast : splitNl t.reverse =
            (r.map List.reverse).reverse ++ [h.reverse] := by
          rw [ih]
          simp
        rw [List.reverse_cons]
        rw [splitNl_snoc_char c hc t.reverse
          ((r.map List.reverse).reverse) h.reverse hlast]
        simp only [splitNl, if_neg hc, hsp]
        simp

theorem pad_right_mem (w m l : List Char) (hws : allWS w = true)
    (h : l ∈ splitNl m) :
    ∃ p, allWS p = true ∧ l ++ p ∈ splitNl (m ++ w) := by
  have h1 : l.reverse ∈ splitNl m.reverse := by
    rw [splitNl_reverse]
    rw [List.mem_reverse, List.mem_map]
    exact ⟨l, h, rfl⟩
  obtain ⟨p, hp, hmem⟩ := pad_left_mem w.reverse m.reverse l.reverse
    (by rwa [allWS_reverse]) h1
  have h2 : p ++ l.reverse ∈ splitNl (m ++ w).reverse := by
    rwa [List.reverse_append]
  rw [splitNl_reverse, List.mem_reverse, List.mem_map] at h2
  obtain ⟨q, hq, hqe⟩ := h2
  refine ⟨p.reverse, by rwa [allWS_reverse], ?_⟩
  have : q = l ++ p.reverse := by
    have := congrArg List.reverse hqe
    simpa using this
  rwa [← this]

theorem lines_of_pyStrip (s l : List Char)
    (h : l ∈ splitNl (pyStrip s)) :
    ∃ l' u w, allWS u = true ∧ allWS w = true ∧ l' = u ++ l ++ w ∧
      l' ∈ splitNl s := by
  obtain ⟨u, w, hu, hw, hdec⟩ := pyStrip_decomp s
  obtain ⟨p2, hp2, hmem2⟩ := pad_right_mem w (pyStrip s) l hw h
  obtain ⟨p1, hp1, hmem1⟩ := pad_left_mem u (pyStrip s ++ w) (l ++ p2)
    hu hmem2
  refine ⟨p1 ++ l ++ p2, p1, p2, hp1, hp2, rfl, ?_⟩
  rw [hdec, List.append_assoc]
  simpa [List.append_assoc] using hmem1

theorem mem_pyStrip_sub (s : List Char) (c : Char)
    (h : c ∈ pyStrip s) : c ∈ s := by
  obtain ⟨u, w, _, _, hdec⟩ := pyStrip_decomp s
  rw [hdec]
  simp [h]

theorem heading_nil_false : isSectionHeading [] = false := by decide

theorem WFEntry_flush (k : List Char) (content : List (List Char))
    (hk : WFKey k)
    (hcont : ∀ l ∈ content, isSectionHeading l = false ∧ '\n' ∉ l) :
    WFEntry (k, pyStrip (joinNl content)) := by
  refine ⟨hk, pyStrip_idem _, fun l hl => ?_⟩
  obtain ⟨l', u, w, hu, hw, hpad, hmem⟩ :=
    lines_of_pyStrip (joinNl content) l hl
  have hl' : isSectionHeading l' = false := by
    cases hcnil : content with
    | nil =>
      rw [hcnil] at hmem
      simp only [joinNl, splitNl, List.mem_singleton] at hmem
      rw [hmem]
      exact heading_nil_false
    | cons x t =>
      rw [splitNl_joinNl content (by rw [hcnil]; simp)
        (fun l2 hl2 => (hcont l2 hl2).2)] at hmem
      exact (hcont l' hmem).1
  rw [hpad] at hl'
  exact heading_of_ws_pad u l w hu hw hl'

theorem dictSet_mem_cases :
    ∀ (d : List (List Char × List Char)) (k v : List Char) kv,
      kv ∈ dictSet d k v → kv ∈ d ∨ kv = (k, v) := by
  intro d k v
  induction d with
  | nil =>
    intro kv h
    simp [dictSet] at h
    exact Or.inr h
  | cons kv0 t ih =>
    intro kv h
    cases kv0 with
    | mk k0 v0 =>
      by_cases hk : k0 = k
      · rw [dictSet, if_pos hk] at h
        rcases List.mem_cons.mp h with h1 | h1
        · right
          rw [h1, hk]
        · exact Or.inl (List.mem_cons_of_mem _ h1)
      · rw [dictSet, if_neg hk] at h
        rcases List.mem_cons.mp h with h1 | h1
        · exact Or.inl (by rw [h1]; exact List.mem_cons_self _ _)
        · rcases ih kv h1 with h2 | h2
          · exact Or.inl (List.mem_cons_of_mem _ h2)
          · exact Or.inr h2

theorem dictSet_ne_nil (d : List (List Char × List Char))
    (k v : List Char) : dictSet d k v ≠ [] := by
  cases d with
  | nil => simp [dictSet]
  | cons kv t =>
    cases kv with
    | mk k0 v0 =>
      rw [dictSet]
      split <;> simp

theorem parseLoop_entries :
    ∀ (lines : List (List Char)) (secs : List (List Char × List Char))
      (cur : Option (List Char)) (content : List (List Char)),
      (∀ l ∈ lines, '\n' ∉ l) →
      (∀ kv ∈ secs, WFEntry kv) →
      (∀ k, cur = some k → WFKey k) →
      (∀ l ∈ content, isSectionHeading l = false ∧ '\n' ∉ l) →
      ∀ kv ∈ parseFinish (parseLoop secs cur content lines),
        WFEntry kv := by
  intro lines
  induction lines with
  | nil =>
    intro secs cur content _ hsecs hcur hcont kv hkv
    cases cur with
    | none => exact hsecs kv hkv
    | some k =>
      simp only [parseLoop, parseFinish] at hkv
      rcases dictSet_mem_cases secs k _ kv hkv with h | h
      · exact hsecs kv h
      · rw [h]
        exact WFEntry_flush k content (hcur k rfl) hcont
  | cons line rest ih =>
    intro secs cur content hlines hsecs hcur hcont kv hkv
    have hlr : ∀ l ∈ rest, '\n' ∉ l :=
      fun l hl => hlines l (List.mem_cons_of_mem _ hl)
    have hlnl : '\n' ∉ line := hlines line (List.mem_cons_self _ _)
    by_cases hl : isSectionHeading line = true
    · have hknew : WFKey (pyStrip line) :=
        ⟨heading_pyStrip line hl, pyStrip_idem line,
          fun hm => hlnl (mem_pyStrip_sub line '\n' hm)⟩
      cases cur with
      | none =>
        simp only [parseLoop, hl, if_true] at hkv
        exact ih secs (some (pyStrip line)) [] hlr hsecs
          (fun k hk => by injection hk with h2; rw [← h2]; exact hknew)
          (by simp) kv hkv
      | some s =>
        simp only [parseLoop, hl, if_true] at hkv
        refine ih (dictSet secs s (pyStrip (joinNl content)))
          (some (pyStrip line)) [] hlr ?_
          (fun k hk => by injection hk with h2; rw [← h2]; exact hknew)
          (by simp) kv hkv
        intro kv2 hkv2
        rcases dictSet_mem_cases secs s _ kv2 hkv2 with h2 | h2
        · exact hsecs kv2 h2
        · rw [h2]
          exact WFEntry_flush s content (hcur s rfl) hcont
    · have hl' : isSectionHeading line = false := by simpa using hl
      cases cur with
      | none =>
        simp only [parseLoop, hl', Bool.false_eq_true, if_false] at hkv
        exact ih secs none content hlr hsecs hcur hcont kv hkv
      | some s =>
        simp only [parseLoop, hl', Bool.false_eq_true, if_false] at hkv
        refine ih secs (some s) (content ++ [line]) hlr hsecs hcur
          ?_ kv hkv
        intro l2 hl2
        rcases List.mem_append.mp hl2 with h2 | h2
        · exact hcont l2 h2
        · rw [List.mem_singleton.mp h2]
          exact ⟨hl', hlnl⟩

theorem dictKeys_dictSet_mem (k v : List Char) :
    ∀ (d : List (List Char × List Char)), k ∈ dictKeys d →
      dictKeys (dictSet d k v) = dictKeys d := by
  intro d
  induction d with
  | nil => intro h; simp [dictKeys] at h
  | cons kv0 t ih =>
    intro h
    cases kv0 with
    | mk k0 v0 =>
      by_cases hk : k0 = k
      · rw [dictSet, if_pos hk]
        simp [dictKeys]
      · rw [dictSet, if_neg hk]
        simp only [dictKeys, List.map_cons] at h ⊢
        rcases List.mem_cons.mp h with h1 | h1
        · exact absurd h1.symm hk
        · have := ih (by simpa [dictKeys] using h1)
          simp only [dictKeys] at this
          rw [this]

theorem dictKeys_nodup_dictSet (k v : List Char)
    (d : List (List Char × List Char)) (h : (dictKeys d).Nodup) :
    (dictKeys (dictSet d k v)).Nodup := by
  by_cases hm : k ∈ dictKeys d
  · rwa [dictKeys_dictSet_mem k v d hm]
  · rw [dictSet_fresh k v d hm, dictKeys_append]
    rw [List.nodup_append]
    exact ⟨h, List.nodup_singleton k, fun a ha hb => hm (by
      simp only [dictKeys, List.map_cons, List.map_nil,
        List.mem_singleton] at hb
      rw [← hb]
      exact ha)⟩

theorem parseLoop_nodup :
    ∀ (lines : List (List Char)) (secs : List (List Char × List Char))
      (cur : Option (List Char)) (content : List (List Char)),
      (dictKeys secs).Nodup →
      (dictKeys (parseFinish (parseLoop secs cur content lines))).Nodup := by
  intro lines
  induction lines with
  | nil =>
    intro secs cur content h
    cases cur with
    | none => exact h
    | some s =>
      simp only [parseLoop, parseFinish]
      exact dictKeys_nodup_dictSet s _ secs h
  | cons line rest ih =>
    intro secs cur content h
    by_cases hl : isSectionHeading line = true
    · cases cur with
      | none =>
        simp only [parseLoop, hl, if_true]
        exact ih secs _ [] h
      | some s =>
        simp only [parseLoop, hl, if_true]
        exact ih _ _ [] (dictKeys_nodup_dictSet s _ secs h)
    · have hl' : isSectionHeading line = false := by simpa using hl
      cases cur with
      | none =>
        simp only [parseLoop, hl', Bool.false_eq_true, if_false]
        exact ih secs none content h
      | some s =>
        simp only [parseLoop, hl', Bool.false_eq_true, if_false]
        exact ih secs (some s) _ h

theorem parseLoop_ne_nil :
    ∀ (lines : List (List Char)) (secs : List (List Char × List Char))
      (cur : Option (List Char)) (content : List (List Char)),
      ((∃ l ∈ lines, isSectionHeading l = true) ∨ secs ≠ [] ∨ cur ≠ none) →
      parseFinish (parseLoop secs cur content lines) ≠ [] := by
  intro lines
  induction lines with
  | nil =>
    intro secs cur content h
    cases cur with
    | none =>
      simp only [parseLoop, parseFinish]
      rcases h with ⟨l, hl, _⟩ | h | h
      · simp at hl
      · exact h
      · exact absurd rfl h
    | some s =>
      simp only [parseLoop, parseFinish]
      exact dictSet_ne_nil secs s _
  | cons line rest ih =>
    intro secs cur content h
    by_cases hl : isSectionHeading line = true
    · cases cur with
      | none =>
        simp only [parseLoop, hl, if_true]
        exact ih _ _ [] (Or.inr (Or.inr (by simp)))
      | some s =>
        simp only [parseLoop, hl, if_true]
        exact ih _ _ [] (Or.inr (Or.inr (by simp)))
    · have hl' : isSectionHeading line = false := by simpa using hl
      have h2 : (∃ l ∈ rest, isSectionHeading l = true) ∨ secs ≠ [] ∨
          cur ≠ none := by
        rcases h with ⟨l, hml, hhl⟩ | h | h
        · rcases List.mem_cons.mp hml with h3 | h3
          · rw [h3] at hhl
            rw [hhl] at hl'
            simp at hl'
          · exact Or.inl ⟨l, h3, hhl⟩
        · exact Or.inr (Or.inl h)
        · exact Or.inr (Or.inr h)
      cases cur with
      | none =>
        simp only [parseLoop, hl', Bool.false_eq_true, if_false]
        exact ih secs none content h2
      | some s =>
        simp only [parseLoop, hl', Bool.false_eq_true, if_false]
        exact ih secs (some s) _ (Or.inr (Or.inr (by simp)))

theorem parse_sections_wf (doc : List Char)
    (h : ∃ l ∈ splitNl doc, isSectionHeading l = true) :
    parse_sections doc ≠ [] ∧
    (∀ kv ∈ parse_sections doc, WFEntry kv) ∧
    (dictKeys (parse_sections doc)).Nodup := by
  have hne := parseLoop_ne_nil (splitNl doc) [] none [] (Or.inl h)
  have hemp : (parseFinish (parseLoop [] none [] (splitNl doc))).isEmpty =
      false := by
    rw [List.isEmpty_eq_false]
    exact hne
  have heq : parse_sections doc =
      parseFinish (parseLoop [] none [] (splitNl doc)) := by
    simp only [parse_sections, hemp, Bool.false_eq_true, if_false]
  refine ⟨by rw [heq]; exact hne, ?_, ?_⟩
  · rw [heq]
    exact parseLoop_entries (splitNl doc) [] none []
      (fun l hl => noNl_of_mem_splitNl doc l hl)
      (by simp) (by simp) (by simp)
  · rw [heq]
    exact parseLoop_nodup (splitNl doc) [] none [] (by simp [dictKeys])

theorem joinNl_cons_ne (x : List Char) (rest : List (List Char))
    (h : rest ≠ []) : joinNl (x :: rest) = x ++ '\n' :: joinNl rest := by
  cases rest with
  | nil => exact absurd rfl h
  | cons y t => rfl

theorem joinNl_append :
    ∀ (xs ys : List (List Char)), xs ≠ [] → ys ≠ [] →
      joinNl (xs ++ ys) = joinNl xs ++ '\n' :: joinNl ys := by
  intro xs
  induction xs with
  | nil => intro ys h _; exact absurd rfl h
  | cons x t ih =>
    intro ys _ hys
    cases t with
    | nil =>
      cases ys with
      | nil => exact absurd rfl hys
      | cons y ys' => simp [joinNl]
    | cons x2 t' =>
      have hih := ih ys (by simp) hys
      rw [List.cons_append,
        joinNl_cons_ne x ((x2 :: t') ++ ys) (by simp),
        joinNl_cons_ne x (x2 :: t') (by simp), hih]
      simp

theorem joinNl_snoc_nil (ys : List (List Char)) (h : ys ≠ []) :
    joinNl (ys ++ [[]]) = joinNl ys ++ ['\n'] := by
  rw [joinNl_append ys [[]] h (by simp)]
  rfl

theorem flattenB_ne_nil (D : List (List Char × List Char)) (h : D ≠ []) :
    List.flatten (D.map lineBlock) ≠ [] := by
  cases D with
  | nil => exact absurd rfl h
  | cons kv t => simp [lineBlock]

theorem joinNl_flatten3_eq_blocks :
    ∀ (D : List (List Char × List Char)),
      joinNl (List.flatten (D.map (fun kv => [kv.1, kv.2, ([] : List Char)]))) =
      joinNl (List.flatten (D.map lineBlock)) := by
  intro D
  induction D with
  | nil => rfl
  | cons kv D' ih =>
    cases kv with
    | mk k v =>
      simp only [List.map_cons, List.flatten_cons]
      have h3 : ([k, v, ([] : List Char)] : List (List Char)) ++
          List.flatten (D'.map (fun kv => [kv.1, kv.2, ([] : List Char)])) =
          k :: (v :: [] ::
            List.flatten (D'.map (fun kv => [kv.1, kv.2, ([] : List Char)]))) := by
        simp
      have hB : lineBlock (k, v) ++ List.flatten (D'.map lineBlock) =
          k :: ((splitNl v ++ [[]]) ++ List.flatten (D'.map lineBlock)) := by
        simp [lineBlock]
      rw [h3, hB, joinNl_cons_ne k _ (by simp),
        joinNl_cons_ne k _ (by simp)]
      refine congrArg (fun z => k ++ '\n' :: z) ?_
      cases hD' : D' with
      | nil =>
        simp only [List.map_nil, List.flatten_nil, List.append_nil]
        rw [joinNl_snoc_nil (splitNl v) (splitNl_ne_nil v),
          joinNl_splitNl]
        rfl
      | cons kv2 D'' =>
        rw [← hD']
        have hF3 : List.flatten
            (D'.map (fun kv => [kv.1, kv.2, ([] : List Char)])) ≠ [] := by
          rw [hD']
          simp
        have hFB : List.flatten (D'.map lineBlock) ≠ [] := by
          rw [hD']
          simp [lineBlock]
        rw [List.append_assoc,
          joinNl_append (splitNl v) ([[]] ++ List.flatten (D'.map lineBlock))
            (splitNl_ne_nil v) (by simp),
          joinNl_splitNl,
          joinNl_cons_ne v _ (by simp),
          joinNl_cons_ne ([] : List Char) _ hF3,
          List.singleton_append,
          joinNl_cons_ne ([] : List Char) _ hFB, ih]

theorem dropEmptyTail_append (xs ys : List (List Char))
    (h : dropEmptyTail ys ≠ []) :
    dropEmptyTail (xs ++ ys) = xs ++ dropEmptyTail ys := by
  have h2 : ys.reverse.dropWhile List.isEmpty ≠ [] := by
    intro h0
    rw [dropEmptyTail, h0] at h
    exact h rfl
  rw [dropEmptyTail, List.reverse_append,
    dropWhile_ne_nil_append ys.reverse xs.reverse h2,
    List.reverse_append, List.reverse_reverse, dropEmptyTail]

theorem dropEmptyTail_snoc_nonempty (ys : List (List Char))
    (z : List Char) (h : z ≠ []) :
    dropEmptyTail (ys ++ [z]) = ys ++ [z] := by
  rw [dropEmptyTail, List.reverse_append]
  simp only [List.reverse_cons, List.reverse_nil, List.nil_append,
    List.singleton_append, List.dropWhile_cons]
  rw [show z.isEmpty = false from by simpa using h]
  simp

theorem dropEmptyTail_snoc_nil (ys : List (List Char)) :
    dropEmptyTail (ys ++ [[]]) = dropEmptyTail ys := by
  rw [dropEmptyTail, dropEmptyTail, List.reverse_append]
  simp

theorem state_all_empty_replicate (xs : List (List Char))
    (h : ∀ x ∈ xs, x.isEmpty = true) :
    xs = List.replicate xs.length [] := by
  induction xs with
  | nil => rfl
  | cons x t ih =>
    have hx : x = [] := by simpa using h x (by simp)
    rw [List.length_cons, List.replicate_succ, hx,
      ih (fun y hy => h y (List.mem_cons_of_mem _ hy))]
    simp

theorem dropEmptyTail_decomp (bs : List (List Char)) :
    ∃ m, bs = dropEmptyTail bs ++ List.replicate m [] := by
  refine ⟨(bs.reverse.takeWhile List.isEmpty).length, ?_⟩
  conv_lhs => rw [← List.reverse_reverse bs,
    ← List.takeWhile_append_dropWhile (p := List.isEmpty) (l := bs.reverse)]
  rw [List.reverse_append, dropEmptyTail]
  refine congrArg _ ?_
  rw [state_all_empty_replicate (bs.reverse.takeWhile List.isEmpty)
    (fun x hx => List.mem_takeWhile_imp hx)]
  simp

theorem stripR_joinNl_replicate (core : List (List Char)) (h : core ≠ [])
    (m : Nat) :
    stripR (joinNl (core ++ List.replicate m [])) =
      stripR (joinNl core) := by
  induction m with
  | zero => simp
  | succ n ih =>
    rw [List.replicate_succ', ← List.append_assoc,
      joinNl_snoc_nil (core ++ List.replicate n []) (by simp [h]),
      stripR_append_ws _ ['\n'] (by simp [allWS, isPySpace]), ih]

theorem stripR_eq_last_non_ws (v : List Char) (hs : stripR v = v)
    (hne : v ≠ []) : ∃ v0 c, v = v0 ++ [c] ∧ isPySpace c = false := by
  rcases List.eq_nil_or_concat v with h | ⟨v0, c, hvc⟩
  · exact absurd h hne
  · rw [List.concat_eq_append] at hvc
    subst hvc
    refine ⟨v0, c, rfl, ?_⟩
    by_contra hc
    rw [Bool.not_eq_false] at hc
    have h1 : stripR (v0 ++ [c]) = stripR v0 :=
      stripR_append_ws v0 [c] (by simp [allWS, hc])
    rw [hs] at h1
    have h2 : (stripR v0).length ≤ v0.length := by
      rw [stripR]
      calc (v0.reverse.dropWhile isPySpace).reverse.length
          = (v0.reverse.dropWhile isPySpace).length := by simp
        _ ≤ v0.reverse.length := (List.dropWhile_sublist _).length_le
        _ = v0.length := by simp
    rw [← h1] at h2
    simp at h2

theorem splitNl_last_nonempty (v : List Char) (hs : stripR v = v)
    (hne : v ≠ []) :
    ∃ ys z0 c, splitNl v = ys ++ [z0 ++ [c]] ∧ isPySpace c = false := by
  obtain ⟨v0, c, hvc, hc⟩ := stripR_eq_last_non_ws v hs hne
  subst hvc
  have hcn : ¬c = '\n' := by
    intro h
    rw [h] at hc
    simp [isPySpace] at hc
  rcases List.eq_nil_or_concat (splitNl v0) with h | ⟨ys, z, hz⟩
  · exact absurd h (splitNl_ne_nil v0)
  · rw [List.concat_eq_append] at hz
    exact ⟨ys, z, c, splitNl_snoc_char c hcn v0 ys z hz, hc⟩

theorem parseLoop_body_accum :
    ∀ (body : List (List Char)) (rest : List (List Char))
      (secs : List (List Char × List Char)) (k : List Char)
      (content : List (List Char)),
      (∀ l ∈ body, isSectionHeading l = false) →
      parseLoop secs (some k) content (body ++ rest) =
        parseLoop secs (some k) (content ++ body) rest := by
  intro body
  induction body with
  | nil => intro rest secs k content _; simp
  | cons l body' ih =>
    intro rest secs k content h
    have hl : isSectionHeading l = false := h l (by simp)
    simp only [List.cons_append, parseLoop, hl, Bool.false_eq_true,
      if_false, List.append_eq]
    rw [ih rest secs k (content ++ [l])
      (fun l2 hl2 => h l2 (List.mem_cons_of_mem _ hl2))]
    simp

theorem parseLoop_body_final :
    ∀ (body : List (List Char)) (secs : List (List Char × List Char))
      (k : List Char) (content : List (List Char)),
      (∀ l ∈ body, isSectionHeading l = false) →
      parseLoop secs (some k) content body =
        (secs, some k, content ++ body) := by
  intro body secs k content h
  have hacc := parseLoop_body_accum body [] secs k content h
  rw [List.append_nil] at hacc
  rw [hacc]
  rfl

theorem parseLoop_heading_some (secs : List (List Char × List Char))
    (k k' : List Char) (content : List (List Char))
    (rest : List (List Char)) (hh : isSectionHeading k' = true)
    (hs : pyStrip k' = k') :
    parseLoop secs (some k) content (k' :: rest) =
      parseLoop (dictSet secs k (pyStrip (joinNl content))) (some k') []
        rest := by
  simp only [parseLoop, hh, if_true, hs]

theorem parseLoop_heading_none (secs : List (List Char × List Char))
    (k' : List Char) (content : List (List Char))
    (rest : List (List Char)) (hh : isSectionHeading k' = true)
    (hs : pyStrip k' = k') :
    parseLoop secs none content (k' :: rest) =
      parseLoop secs (some k') [] rest := by
  simp only [parseLoop, hh, if_true, hs]

theorem pyStrip_body_block (v : List Char) :
    pyStrip (joinNl (splitNl v ++ [[]])) = pyStrip v := by
  rw [joinNl_snoc_nil (splitNl v) (splitNl_ne_nil v), joinNl_splitNl]
  exact pyStrip_append_ws v ['\n'] (by simp [allWS, isPySpace])

theorem parse_blocks :
    ∀ (D : List (List Char × List Char))
      (secs : List (List Char × List Char)) (k : List Char)
      (content : List (List Char)) (kl : List Char)
      (tail : List (List Char)) (vl : List Char),
      (∀ kv ∈ D, WFKey kv.1 ∧
        ∀ l ∈ splitNl kv.2, isSectionHeading l = false) →
      WFKey kl →
      (∀ l ∈ tail, isSectionHeading l = false) →
      pyStrip (joinNl tail) = pyStrip vl →
      (dictKeys secs ++ [k] ++ dictKeys D ++ [kl]).Nodup →
      parseFinish (parseLoop secs (some k) content
          (List.flatten (D.map lineBlock) ++ kl :: tail)) =
        ((dictSet secs k (pyStrip (joinNl content)) ++
          D.map (fun kv => (kv.1, pyStrip kv.2))) ++ [(kl, pyStrip vl)]) := by
  intro D
  induction D with
  | nil =>
    intro secs k content kl tail vl _ hkl htail htv hnd
    simp only [List.map_nil, List.flatten_nil, List.nil_append,
      List.append_nil]
    rw [parseLoop_heading_some secs k kl content tail hkl.1 hkl.2.1,
      parseLoop_body_final tail _ kl [] htail]
    simp only [parseFinish, List.nil_append]
    rw [htv]
    have hkf : k ∉ dictKeys secs :=
      nodup_split_not_mem (a := dictKeys secs) (s := k) (c := [kl])
        (by simpa using hnd)
    have hkeys : dictKeys (dictSet secs k (pyStrip (joinNl content))) =
        dictKeys secs ++ [k] :=
      dictKeys_dictSet_fresh k _ secs hkf
    have hklf : kl ∉ dictKeys (dictSet secs k (pyStrip (joinNl content))) := by
      rw [hkeys]
      exact nodup_split_not_mem (a := dictKeys secs ++ [k]) (s := kl)
        (c := []) (by simpa using hnd)
    rw [dictSet_fresh kl (pyStrip vl) _ hklf]
  | cons kv D' ih =>
    intro secs k content kl tail vl hD hkl htail htv hnd
    cases kv with
    | mk k1 v1 =>
      have hk1 : WFKey k1 := (hD (k1, v1) (by simp)).1
      have hv1 : ∀ l ∈ splitNl v1, isSectionHeading l = false :=
        (hD (k1, v1) (by simp)).2
      have hkf : k ∉ dictKeys secs := by
        refine nodup_split_not_mem (a := dictKeys secs) (s := k)
          (c := dictKeys ((k1, v1) :: D') ++ [kl]) ?_
        simpa [List.append_assoc] using hnd
      have hlines : List.flatten (((k1, v1) :: D').map lineBlock) ++
          kl :: tail =
          k1 :: ((splitNl v1 ++ [[]]) ++
            (List.flatten (D'.map lineBlock) ++ kl :: tail)) := by
        simp [lineBlock]
      rw [hlines,
        parseLoop_heading_some secs k k1 content _ hk1.1 hk1.2.1,
        parseLoop_body_accum (splitNl v1 ++ [[]])
          (List.flatten (D'.map lineBlock) ++ kl :: tail) _ k1 []
          (fun l hl => by
            rcases List.mem_append.mp hl with h2 | h2
            · exact hv1 l h2
            · rw [List.mem_singleton.mp h2]
              exact heading_nil_false)]
      have hkeys : dictKeys (dictSet secs k (pyStrip (joinNl content))) =
          dictKeys secs ++ [k] :=
        dictKeys_dictSet_fresh k _ secs hkf
      have hnd' : (dictKeys (dictSet secs k (pyStrip (joinNl content))) ++
          [k1] ++ dictKeys D' ++ [kl]).Nodup := by
        rw [hkeys]
        have : dictKeys secs ++ [k] ++ dictKeys ((k1, v1) :: D') ++ [kl] =
            dictKeys secs ++ [k] ++ [k1] ++ dictKeys D' ++ [kl] := by
          simp [dictKeys]
        rw [this] at hnd
        simpa [List.append_assoc] using hnd
      rw [List.nil_append,
        ih (dictSet secs k (pyStrip (joinNl content))) k1
          (splitNl v1 ++ [[]]) kl tail vl
          (fun kv2 hkv2 => hD kv2 (List.mem_cons_of_mem _ hkv2))
          hkl htail htv hnd']
      rw [pyStrip_body_block v1]
      have hk1f : k1 ∉ dictKeys (dictSet secs k (pyStrip (joinNl content))) := by
        rw [hkeys]
        refine nodup_split_not_mem (a := dictKeys secs ++ [k]) (s := k1)
          (c := dictKeys D' ++ [kl]) ?_
        have : dictKeys secs ++ [k] ++ dictKeys ((k1, v1) :: D') ++ [kl] =
            (dictKeys secs ++ [k]) ++ ([k1] ++ (dictKeys D' ++ [kl])) := by
          simp [dictKeys]
        rw [this] at hnd
        exact hnd
      rw [dictSet_fresh k1 (pyStrip v1) _ hk1f]
      simp

theorem stripL_hash_head (t : List Char) :
    stripL ('#' :: t) = '#' :: t := by
  rw [stripL, List.dropWhile_cons,
    show isPySpace '#' = false from by decide]
  simp

theorem stripR_joinNl_snoc (ys : List (List Char)) (z : List Char)
    (hz : stripR z = z) (hzne : z ≠ []) :
    stripR (joinNl (ys ++ [z])) = joinNl (ys ++ [z]) := by
  obtain ⟨z0, c, hzc, hc⟩ := stripR_eq_last_non_ws z hz hzne
  cases ys with
  | nil =>
    simp only [List.nil_append, joinNl]
    rw [hzc]
    exact stripR_of_last_non_ws z0 c hc
  | cons y ys' =>
    rw [joinNl_append (y :: ys') [z] (by simp) (by simp), hzc,
      show joinNl (y :: ys') ++ '\n' :: joinNl [z0 ++ [c]] =
        (joinNl (y :: ys') ++ '\n' :: z0) ++ [c] from by simp [joinNl],
      stripR_of_last_non_ws _ c hc]

theorem flattenB_noNl (D : List (List Char × List Char))
    (h : ∀ kv ∈ D, '\n' ∉ kv.1) :
    ∀ l ∈ List.flatten (D.map lineBlock), '\n' ∉ l := by
  intro l hl
  rw [List.mem_flatten] at hl
  obtain ⟨blk, hblk, hlblk⟩ := hl
  rw [List.mem_map] at hblk
  obtain ⟨kv, hkv, rfl⟩ := hblk
  rw [lineBlock] at hlblk
  rcases List.mem_cons.mp hlblk with h1 | h1
  · rw [h1]
    exact h kv hkv
  · rcases List.mem_append.mp h1 with h2 | h2
    · exact noNl_of_mem_splitNl kv.2 l h2
    · rw [List.mem_singleton.mp h2]
      simp

theorem parse_rebuild (D : List (List Char × List Char)) (hWF : WFDict D) :
    parse_sections (rebuildPrompt D) =
      D.map (fun kv => (kv.1, pyStrip kv.2)) := by
  obtain ⟨hne, hkey, hnd, hbody, hstrip⟩ := hWF
  rcases List.eq_nil_or_concat D with rfl | ⟨Dfront, kvl, hD⟩
  · exact absurd rfl hne
  obtain ⟨kl, vl⟩ := kvl
  rw [List.concat_eq_append] at hD
  have hklmem : (kl, vl) ∈ D := by rw [hD]; simp
  have hklWF : WFKey kl := hkey (kl, vl) hklmem
  have hvlR : stripR vl = vl := hstrip (kl, vl) hklmem
  have hvlBody : ∀ l ∈ splitNl vl, isSectionHeading l = false :=
    hbody (kl, vl) hklmem
  have hklR : stripR kl = kl := by
    conv_lhs => rw [← hklWF.2.1]
    rw [stripR_pyStrip, hklWF.2.1]
  have hklsh : ∃ t, kl = '#' :: t := heading_key_shape kl hklWF.1 hklWF.2.1
  have hklne : kl ≠ [] := by
    obtain ⟨t, ht⟩ := hklsh
    rw [ht]
    simp
  obtain ⟨tail, htail, htailNl, htv, hdETblk, ys0, z0, hyz, hz0R, hz0ne⟩ :
      ∃ tail, (∀ l ∈ tail, isSectionHeading l = false) ∧
        (∀ l ∈ tail, '\n' ∉ l) ∧
        pyStrip (joinNl tail) = pyStrip vl ∧
        dropEmptyTail (lineBlock (kl, vl)) = kl :: tail ∧
        ∃ ys z, kl :: tail = ys ++ [z] ∧ stripR z = z ∧ z ≠ [] := by
    by_cases hvl : vl = []
    · refine ⟨[], by simp, by simp, ?_, ?_, [], kl, rfl, hklR, hklne⟩
      · rw [hvl]
        rfl
      · rw [lineBlock, hvl]
        show dropEmptyTail ((kl :: [[]]) ++ [[]]) = [kl]
        rw [dropEmptyTail_snoc_nil,
          show kl :: [([] : List Char)] = [kl] ++ [[]] from rfl,
          dropEmptyTail_snoc_nil,
          show [kl] = [] ++ [kl] from rfl,
          dropEmptyTail_snoc_nonempty [] kl hklne]
    · obtain ⟨ys, za, cz, hsp, hcz⟩ := splitNl_last_nonempty vl hvlR hvl
      refine ⟨splitNl vl, hvlBody, fun l hl => noNl_of_mem_splitNl vl l hl,
        by rw [joinNl_splitNl], ?_, kl :: ys, za ++ [cz], ?_, ?_, by simp⟩
      · rw [lineBlock,
          show kl :: (splitNl vl ++ [[]]) =
            (kl :: splitNl vl) ++ [[]] from by simp,
          dropEmptyTail_snoc_nil, hsp,
          show kl :: (ys ++ [za ++ [cz]]) =
            (kl :: ys) ++ [za ++ [cz]] from by simp,
          dropEmptyTail_snoc_nonempty _ _ (by simp)]
      · rw [hsp]
        simp
      · exact stripR_of_last_non_ws za cz hcz
  have hBdec : List.flatten (D.map lineBlock) =
      List.flatten (Dfront.map lineBlock) ++ lineBlock (kl, vl) := by
    rw [hD]
    simp
  have hcoreB : dropEmptyTail (List.flatten (D.map lineBlock)) =
      List.flatten (Dfront.map lineBlock) ++ kl :: tail := by
    rw [hBdec, dropEmptyTail_append _ _ (by rw [hdETblk]; simp), hdETblk]
  have hstripRj : stripR (joinNl (List.flatten (D.map lineBlock))) =
      joinNl (List.flatten (Dfront.map lineBlock) ++ kl :: tail) := by
    obtain ⟨m, hm⟩ := dropEmptyTail_decomp (List.flatten (D.map lineBlock))
    rw [hcoreB] at hm
    rw [hm, stripR_joinNl_replicate _ (by simp) m]
    rw [show List.flatten (Dfront.map lineBlock) ++ kl :: tail =
      (List.flatten (Dfront.map lineBlock) ++ ys0) ++ [z0] from by
        rw [List.append_assoc, hyz]]
    exact stripR_joinNl_snoc _ z0 hz0R hz0ne
  have hfirst : ∃ K Brest, List.flatten (D.map lineBlock) = K :: Brest ∧
      (∃ t, K = '#' :: t) ∧ Brest ≠ [] := by
    cases hDf : Dfront with
    | nil =>
      refine ⟨kl, splitNl vl ++ [[]], ?_, hklsh, by simp⟩
      rw [hBdec, hDf]
      simp [lineBlock]
    | cons kv1 Dmid =>
      obtain ⟨k1, v1⟩ := kv1
      have hk1 : WFKey k1 := hkey (k1, v1) (by rw [hD, hDf]; simp)
      refine ⟨k1, (splitNl v1 ++ [[]]) ++
        (List.flatten (Dmid.map lineBlock) ++ lineBlock (kl, vl)), ?_,
        heading_key_shape k1 hk1.1 hk1.2.1, by simp⟩
      rw [hBdec, hDf]
      simp [lineBlock]
  have hser : rebuildPrompt D =
      joinNl (List.flatten (Dfront.map lineBlock) ++ kl :: tail) := by
    obtain ⟨K, Brest, hKB, ⟨t, hKt⟩, hBrest⟩ := hfirst
    rw [rebuildPrompt, joinNl_flatten3_eq_blocks, pyStrip, ← hstripRj]
    refine congrArg _ ?_
    rw [hKB, joinNl_cons_ne K Brest hBrest, hKt, List.cons_append,
      stripL_hash_head]
  have hkeyF : ∀ kv, kv ∈ Dfront → '\n' ∉ kv.1 := by
    intro kv hkv
    have hmem : kv ∈ D := by
      rw [hD]
      exact List.mem_append_left _ hkv
    exact (hkey kv hmem).2.2
  have hnoNl : ∀ l ∈ List.flatten (Dfront.map lineBlock) ++ kl :: tail,
      '\n' ∉ l := by
    intro l hl
    rcases List.mem_append.mp hl with h1 | h1
    · exact flattenB_noNl Dfront hkeyF l h1
    · rcases List.mem_cons.mp h1 with h2 | h2
      · rw [h2]
        exact hklWF.2.2
      · exact htailNl l h2
  have hsplit : splitNl (joinNl
      (List.flatten (Dfront.map lineBlock) ++ kl :: tail)) =
      List.flatten (Dfront.map lineBlock) ++ kl :: tail :=
    splitNl_joinNl _ (by simp) hnoNl
  have hparse : parseFinish (parseLoop [] none []
      (List.flatten (Dfront.map lineBlock) ++ kl :: tail)) =
      D.map (fun kv => (kv.1, pyStrip kv.2)) := by
    cases hDf : Dfront with
    | nil =>
      simp only [hDf, List.map_nil, List.flatten_nil, List.nil_append]
      rw [parseLoop_heading_none [] kl [] tail hklWF.1 hklWF.2.1,
        parseLoop_body_final tail [] kl [] htail]
      simp only [parseFinish, List.nil_append]
      rw [htv, hD, hDf]
      rfl
    | cons kv1 Dmid =>
      obtain ⟨k1, v1⟩ := kv1
      have hk1mem : (k1, v1) ∈ D := by rw [hD, hDf]; simp
      have hk1 : WFKey k1 := hkey (k1, v1) hk1mem
      have hcore2 : List.flatten (((k1, v1) :: Dmid).map lineBlock) ++
          kl :: tail =
          k1 :: ((splitNl v1 ++ [[]]) ++
            (List.flatten (Dmid.map lineBlock) ++ kl :: tail)) := by
        simp [lineBlock]
      rw [hcore2, parseLoop_heading_none [] k1 [] _ hk1.1 hk1.2.1,
        parseLoop_body_accum (splitNl v1 ++ [[]])
          (List.flatten (Dmid.map lineBlock) ++ kl :: tail) [] k1 []
          (fun l hl => by
            rcases List.mem_append.mp hl with h2 | h2
            · exact hbody (k1, v1) hk1mem l h2
            · rw [List.mem_singleton.mp h2]
              exact heading_nil_false),
        List.nil_append]
      have hnd' : (dictKeys ([] : List (List Char × List Char)) ++ [k1] ++
          dictKeys Dmid ++ [kl]).Nodup := by
        rw [hD, hDf] at hnd
        simpa [dictKeys] using hnd
      rw [parse_blocks Dmid [] k1 (splitNl v1 ++ [[]]) kl tail vl
        (fun kv2 hkv2 => ⟨hkey kv2 (by rw [hD, hDf]; simp [hkv2]),
          hbody kv2 (by rw [hD, hDf]; simp [hkv2])⟩)
        hklWF htail htv hnd']
      rw [pyStrip_body_block v1, hD, hDf]
      simp [dictSet]
  rw [hser, parse_sections, hsplit, hparse]
  have hmapne : D.map (fun kv => (kv.1, pyStrip kv.2)) ≠ [] := by
    rw [hD]
    simp
  rw [if_neg (by simpa using hmapne)]

theorem strip_join_lines_not_heading (content : List (List Char))
    (hcont : ∀ l ∈ content, isSectionHeading l = false ∧ '\n' ∉ l) :
    ∀ l ∈ splitNl (pyStrip (joinNl content)),
      isSectionHeading l = false := by
  intro l hl
  obtain ⟨l', u, w, hu, hw, hpad, hmem⟩ :=
    lines_of_pyStrip (joinNl content) l hl
  have hl' : isSectionHeading l' = false := by
    cases hcnil : content with
    | nil =>
      rw [hcnil] at hmem
      simp only [joinNl, splitNl, List.mem_singleton] at hmem
      rw [hmem]
      exact heading_nil_false
    | cons x t =>
      rw [splitNl_joinNl content (by rw [hcnil]; simp)
        (fun l2 hl2 => (hcont l2 hl2).2)] at hmem
      exact (hcont l' hmem).1
  rw [hpad] at hl'
  exact heading_of_ws_pad u l w hu hw hl'

theorem parse_sections_wfdict (doc : List Char)
    (h : ∃ l ∈ splitNl doc, isSectionHeading l = true) :
    WFDict (parse_sections doc) ∧
    ∀ kv ∈ parse_sections doc, pyStrip kv.2 = kv.2 := by
  obtain ⟨hne, hent, hnd⟩ := parse_sections_wf doc h
  have hstr : ∀ kv ∈ parse_sections doc, pyStrip kv.2 = kv.2 :=
    fun kv hkv => (hent kv hkv).2.1
  refine ⟨⟨hne, fun kv hkv => (hent kv hkv).1, hnd,
    fun kv hkv => (hent kv hkv).2.2, fun kv hkv => ?_⟩, hstr⟩
  conv_lhs => rw [← hstr kv hkv]
  rw [stripR_pyStrip, hstr kv hkv]

theorem mapStrip_eq_self (D : List (List Char × List Char))
    (h : ∀ kv ∈ D, pyStrip kv.2 = kv.2) :
    D.map (fun kv => (kv.1, pyStrip kv.2)) = D := by
  induction D with
  | nil => rfl
  | cons kv t ih =>
    rw [List.map_cons, h kv (by simp),
      ih (fun kv2 hkv2 => h kv2 (List.mem_cons_of_mem _ hkv2))]

theorem mapStrip_dictSet :
    ∀ (D : List (List Char × List Char)) (k v : List Char),
      (dictSet D k v).map (fun kv => (kv.1, pyStrip kv.2)) =
        dictSet (D.map (fun kv => (kv.1, pyStrip kv.2))) k (pyStrip v) := by
  intro D k v
  induction D with
  | nil => rfl
  | cons kv0 t ih =>
    cases kv0 with
    | mk k0 v0 =>
      by_cases hk : k0 = k
      · rw [dictSet, if_pos hk, List.map_cons, List.map_cons]
        simp only [dictSet, if_pos hk]
      · rw [dictSet, if_neg hk, List.map_cons, List.map_cons]
        simp only [dictSet, if_neg hk]
        rw [ih]

theorem dictSet_dictSet (k a b : List Char) :
    ∀ (d : List (List Char × List Char)),
      dictSet (dictSet d k a) k b = dictSet d k b := by
  intro d
  induction d with
  | nil => simp [dictSet]
  | cons kv t ih =>
    cases kv with
    | mk k0 v0 =>
      by_cases hk : k0 = k
      · simp only [dictSet, if_pos hk]
      · simp only [dictSet, if_neg hk, ih]

theorem dictSet_lookup_self (k v : List Char) :
    ∀ (d : List (List Char × List Char)), dictLookup d k = some v →
      dictSet d k v = d := by
  intro d
  induction d with
  | nil => intro h; simp [dictLookup] at h
  | cons kv t ih =>
    cases kv with
    | mk k0 v0 =>
      intro h
      by_cases hk : k0 = k
      · rw [dictLookup, if_pos hk] at h
        rw [dictSet, if_pos hk]
        injection h with h2
        rw [h2]
      · rw [dictLookup, if_neg hk] at h
        rw [dictSet, if_neg hk, ih h]

theorem mem_nodup_lookup (kv : List Char × List Char) :
    ∀ (d : List (List Char × List Char)), (dictKeys d).Nodup → kv ∈ d →
      dictLookup d kv.1 = some kv.2 := by
  intro d
  induction d with
  | nil => intro _ h; simp at h
  | cons kv0 t ih =>
    cases kv0 with
    | mk k0 v0 =>
      intro hnd hmem
      rcases List.mem_cons.mp hmem with h1 | h1
      · rw [h1, dictLookup, if_pos rfl]
      · have hk : ¬k0 = kv.1 := by
          intro he
          have : kv.1 ∈ dictKeys t := by
            rw [dictKeys, List.mem_map]
            exact ⟨kv, h1, rfl⟩
          simp only [dictKeys, List.map_cons, List.nodup_cons] at hnd
          exact hnd.1 (he ▸ this)
        rw [dictLookup, if_neg hk]
        refine ih ?_ h1
        simp only [dictKeys, List.map_cons, List.nodup_cons] at hnd
        exact hnd.2

theorem dictLookup_dictSet_ne (k key v : List Char) (hne : key ≠ k) :
    ∀ (d : List (List Char × List Char)),
      dictLookup (dictSet d k v) key = dictLookup d key := by
  intro d
  induction d with
  | nil =>
    simp only [dictSet, dictLookup]
    rw [if_neg (fun he => hne he.symm)]
  | cons kv0 t ih =>
    cases kv0 with
    | mk k0 v0 =>
      by_cases hk : k0 = k
      · rw [dictSet, if_pos hk, dictLookup, dictLookup]
        rw [if_neg (fun he => hne (hk ▸ he).symm),
          if_neg (fun he => hne (hk ▸ he).symm)]
      · rw [dictSet, if_neg hk, dictLookup, dictLookup]
        by_cases hk0 : k0 = key
        · rw [if_pos hk0, if_pos hk0]
        · rw [if_neg hk0, if_neg hk0, ih]

theorem find?_dictSet_key (p : List Char → Bool) (k w v : List Char) :
    ∀ (d : List (List Char × List Char)), (dictKeys d).Nodup →
      d.find? (fun kv => p kv.1) = some (k, w) →
      (dictSet d k v).find? (fun kv => p kv.1) = some (k, v) := by
  intro d
  induction d with
  | nil => intro _ h; simp at h
  | cons kv0 t ih =>
    cases kv0 with
    | mk k0 v0 =>
      intro hnd hf
      by_cases hp : p k0 = true
      · rw [List.find?_cons_of_pos _ (by simpa using hp)] at hf
        injection hf with hf2
        have hk0 : k0 = k := by
          have := congrArg Prod.fst hf2
          simpa using this
        rw [dictSet, if_pos hk0]
        rw [List.find?_cons_of_pos _ (by simpa [hk0] using hp)]
        rw [hk0]
      · rw [List.find?_cons_of_neg _ (by simpa using hp)] at hf
        have hk0 : ¬k0 = k := by
          intro he
          have hkmem : k ∈ dictKeys t := by
            have := List.mem_of_find?_eq_some hf
            rw [dictKeys, List.mem_map]
            exact ⟨(k, w), this, rfl⟩
          simp only [dictKeys, List.map_cons, List.nodup_cons] at hnd
          exact hnd.1 (he ▸ hkmem)
        rw [dictSet, if_neg hk0]
        rw [List.find?_cons_of_neg _ (by simpa using hp)]
        refine ih ?_ hf
        simp only [dictKeys, List.map_cons, List.nodup_cons] at hnd
        exact hnd.2

theorem find?_append_last (p : List Char → Bool) (k v : List Char)
    (hp : p k = true) :
    ∀ (d : List (List Char × List Char)),
      (∀ kv ∈ d, p kv.1 = false) →
      (d ++ [(k, v)]).find? (fun kv => p kv.1) = some (k, v) := by
  intro d
  induction d with
  | nil =>
    intro _
    simp only [List.nil_append]
    rw [List.find?_cons_of_pos _ (by simpa using hp)]
  | cons kv0 t ih =>
    intro h
    rw [List.cons_append,
      List.find?_cons_of_neg _ (by simpa using h kv0 (by simp))]
    exact ih (fun kv2 hkv2 => h kv2 (List.mem_cons_of_mem _ hkv2))

theorem stripL_head_non_ws (c : Char) (t : List Char)
    (h : stripL (c :: t) = c :: t) : isPySpace c = false := by
  by_contra hc
  rw [Bool.not_eq_false] at hc
  rw [stripL, List.dropWhile_cons, if_pos hc] at h
  have hlen : (List.dropWhile isPySpace t).length ≤ t.length :=
    (List.dropWhile_sublist _).length_le
  rw [h] at hlen
  simp at hlen

theorem leadsWith_refl : ∀ (s : List Char), leadsWith s s = true := by
  intro s
  induction s with
  | nil => rfl
  | cons c t ih => simp [leadsWith, ih]

theorem hasSub_self (s : List Char) : hasSub s s = true := by
  cases s with
  | nil => rfl
  | cons c t =>
    rw [hasSub]
    simp [leadsWith_refl]

theorem stripR_cons_shape (c : Char) (x : List Char) :
    stripR (c :: x) = [] ∨ ∃ y, stripR (c :: x) = c :: y := by
  obtain ⟨w, _, hdec⟩ := stripR_decomp (c :: x)
  cases hsr : stripR (c :: x) with
  | nil => exact Or.inl rfl
  | cons a y =>
    rw [hsr, List.cons_append] at hdec
    have : c = a := by injection hdec
    exact Or.inr ⟨y, by rw [this]⟩

theorem nonhash_head_not_heading (c : Char) (x : List Char)
    (hws : isPySpace c = false) (hc : ¬c = '#') :
    isSectionHeading (c :: x) = false := by
  rw [isSectionHeading]
  have hsl : stripL (c :: x) = c :: x := by
    rw [stripL, List.dropWhile_cons, hws]
    simp
  rw [pyStrip, hsl]
  rcases stripR_cons_shape c x with h | ⟨y, h⟩
  · rw [h]
    rfl
  · rw [h]
    have : leadsWith (lit ("#")) (c :: y) = false := by
      simp only [lit, leadsWith]
      simp only [Bool.and_eq_false_iff, decide_eq_false_iff_not]
      exact Or.inl (fun he => hc he.symm)
    rw [this]
    rfl

theorem update_section_eq_found (prompt target nc : List Char)
    (kv : List Char × List Char)
    (h : (parse_sections prompt).find?
      (fun kv2 => matchesTarget kv2.1 target) = some kv) :
    update_section prompt target nc =
      rebuildPrompt (dictSet (parse_sections prompt) kv.1 nc) := by
  simp only [update_section, h]

theorem update_section_eq_notfound (prompt target nc : List Char)
    (h : (parse_sections prompt).find?
      (fun kv2 => matchesTarget kv2.1 target) = none) :
    update_section prompt target nc =
      rebuildPrompt (dictSet (parse_sections prompt)
        (lit ("# ") ++ pyUpper target) nc) := by
  simp only [update_section, h]

theorem add_requirement_eq_found (prompt r : List Char)
    (kv : List Char × List Char)
    (h : (parse_sections prompt).find? (fun kv2 => isReqKey kv2.1) =
      some kv) :
    add_requirement_to_prompt prompt r =
      rebuildPrompt (dictSet (parse_sections prompt) kv.1
        (kv.2 ++ lit ("\n- ") ++ r)) := by
  simp only [add_requirement_to_prompt, h]

theorem remove_requirement_eq_found (prompt m : List Char)
    (kv : List Char × List Char)
    (h : (parse_sections prompt).find? (fun kv2 => isReqKey kv2.1) =
      some kv) :
    remove_requirement_from_prompt prompt m =
      rebuildPrompt (dictSet (parse_sections prompt) kv.1
        (pyStrip (joinNl ((splitNl kv.2).filter
          (fun line => !(hasSub (pyLower line) (pyLower m))))))) := by
  simp only [remove_requirement_from_prompt, h]

theorem remove_requirement_eq_notfound (prompt m : List Char)
    (h : (parse_sections prompt).find? (fun kv2 => isReqKey kv2.1) =
      none) :
    remove_requirement_from_prompt prompt m =
      rebuildPrompt (parse_sections prompt) := by
  simp only [remove_requirement_from_prompt, h]

theorem WFKey_of_mem_keys (D : List (List Char × List Char))
    (hWF : WFDict D) (k : List Char) (hk : k ∈ dictKeys D) : WFKey k := by
  rw [dictKeys, List.mem_map] at hk
  obtain ⟨kv, hkv, rfl⟩ := hk
  exact hWF.2.1 kv hkv

theorem WFDict_dictSet_body (D : List (List Char × List Char))
    (hWF : WFDict D) (k nc : List Char) (hk : k ∈ dictKeys D)
    (hnc : ∀ l ∈ splitNl nc, isSectionHeading l = false)
    (hncR : stripR nc = nc) : WFDict (dictSet D k nc) := by
  obtain ⟨hne, hkey, hnd, hbody, hstrip⟩ := hWF
  refine ⟨dictSet_ne_nil D k nc, ?_, ?_, ?_, ?_⟩
  · intro kv hkv
    rcases dictSet_mem_cases D k nc kv hkv with h1 | h1
    · exact hkey kv h1
    · rw [h1]
      exact WFKey_of_mem_keys D ⟨hne, hkey, hnd, hbody, hstrip⟩ k hk
  · rw [dictKeys_dictSet_mem k nc D hk]
    exact hnd
  · intro kv hkv
    rcases dictSet_mem_cases D k nc kv hkv with h1 | h1
    · exact hbody kv h1
    · rw [h1]
      exact hnc
  · intro kv hkv
    rcases dictSet_mem_cases D k nc kv hkv with h1 | h1
    · exact hstrip kv h1
    · rw [h1]
      exact hncR

theorem WFDict_append_new (D : List (List Char × List Char))
    (hWF : WFDict D) (k nc : List Char) (hk : WFKey k)
    (hkf : k ∉ dictKeys D)
    (hnc : ∀ l ∈ splitNl nc, isSectionHeading l = false)
    (hncR : stripR nc = nc) : WFDict (D ++ [(k, nc)]) := by
  obtain ⟨hne, hkey, hnd, hbody, hstrip⟩ := hWF
  refine ⟨by simp, ?_, ?_, ?_, ?_⟩
  · intro kv hkv
    rcases List.mem_append.mp hkv with h1 | h1
    · exact hkey kv h1
    · rw [List.mem_singleton.mp h1]
      exact hk
  · rw [dictKeys_append, List.nodup_append]
    refine ⟨hnd, by simp [dictKeys], ?_⟩
    intro a ha hb
    simp only [dictKeys, List.map_cons, List.map_nil,
      List.mem_singleton] at hb
    rw [hb] at ha
    exact hkf ha
  · intro kv hkv
    rcases List.mem_append.mp hkv with h1 | h1
    · exact hbody kv h1
    · rw [List.mem_singleton.mp h1]
      exact hnc
  · intro kv hkv
    rcases List.mem_append.mp hkv with h1 | h1
    · exact hstrip kv h1
    · rw [List.mem_singleton.mp h1]
      exact hncR

/-- C2 counterexample: `update_section` is not idempotent.  Updating the
section `FOO` of the empty document once and then again gives two
different documents (the synthetic `# FOO` heading is not a recognized
heading, so the second pass re-parses it as body text and appends a
second copy). -/
theorem update_section_not_idempotent :
    update_section (update_section (lit ("")) (lit ("FOO")) (lit ("bar")))
        (lit ("FOO")) (lit ("bar")) ≠
      update_section (lit ("")) (lit ("FOO")) (lit ("bar")) := by
  decide

/-- C2 amended: `update_section` is idempotent provided the document has
at least one recognized heading, the new body contains no
recognized-heading line and no trailing whitespace, and either the target
matches an existing section or the synthetic heading `"# " + upper(target)`
is itself a well-formed recognized heading that matches the target. -/
theorem update_section_idem (doc target nc : List Char)
    (hdoc : ∃ l ∈ splitNl doc, isSectionHeading l = true)
    (hnc : ∀ l ∈ splitNl nc, isSectionHeading l = false)
    (hncR : stripR nc = nc)
    (hcase : (∃ kv ∈ parse_sections doc, matchesTarget kv.1 target = true) ∨
      (WFKey (lit ("# ") ++ pyUpper target) ∧
        matchesTarget (lit ("# ") ++ pyUpper target) target = true)) :
    update_section (update_section doc target nc) target nc =
      update_section doc target nc := by
  obtain ⟨hWF, hstr⟩ := parse_sections_wfdict doc hdoc
  cases hfind : (parse_sections doc).find?
      (fun kv => matchesTarget kv.1 target) with
  | some kv =>
    obtain ⟨k, w⟩ := kv
    have hkmem : (k, w) ∈ parse_sections doc :=
      List.mem_of_find?_eq_some hfind
    have hkkey : k ∈ dictKeys (parse_sections doc) := by
      rw [dictKeys, List.mem_map]
      exact ⟨(k, w), hkmem, rfl⟩
    have hWF1 : WFDict (dictSet (parse_sections doc) k nc) :=
      WFDict_dictSet_body (parse_sections doc) hWF k nc hkkey hnc hncR
    have hR1 := update_section_eq_found doc target nc (k, w) hfind
    have hparse1 : parse_sections (update_section doc target nc) =
        dictSet (parse_sections doc) k (pyStrip nc) := by
      rw [hR1, parse_rebuild _ hWF1, mapStrip_dictSet,
        mapStrip_eq_self _ hstr]
    have hfind2 : (parse_sections (update_section doc target nc)).find?
        (fun kv2 => matchesTarget kv2.1 target) = some (k, pyStrip nc) := by
      rw [hparse1]
      exact find?_dictSet_key (fun k2 => matchesTarget k2 target) k w
        (pyStrip nc) (parse_sections doc) hWF.2.2.1 hfind
    rw [update_section_eq_found (update_section doc target nc) target nc
      (k, pyStrip nc) hfind2, hparse1, dictSet_dictSet, hR1]
  | none =>
    have hcase2 : WFKey (lit ("# ") ++ pyUpper target) ∧
        matchesTarget (lit ("# ") ++ pyUpper target) target = true := by
      rcases hcase with ⟨kv, hkv, hm⟩ | h2
      · exfalso
        have := List.find?_eq_none.mp hfind kv hkv
        rw [hm] at this
        exact absurd this (by simp)
      · exact h2
    have hfresh : lit ("# ") ++ pyUpper target ∉
        dictKeys (parse_sections doc) := by
      intro hmem
      rw [dictKeys, List.mem_map] at hmem
      obtain ⟨kv, hkv, hkeq⟩ := hmem
      have := List.find?_eq_none.mp hfind kv hkv
      rw [hkeq, hcase2.2] at this
      exact absurd this (by simp)
    have hWF1 : WFDict (parse_sections doc ++
        [(lit ("# ") ++ pyUpper target, nc)]) :=
      WFDict_append_new (parse_sections doc) hWF _ nc hcase2.1 hfresh hnc
        hncR
    have hsetfresh : dictSet (parse_sections doc)
        (lit ("# ") ++ pyUpper target) nc =
        parse_sections doc ++ [(lit ("# ") ++ pyUpper target, nc)] :=
      dictSet_fresh _ nc (parse_sections doc) hfresh
    have hR1 := update_section_eq_notfound doc target nc hfind
    have hparse1 : parse_sections (update_section doc target nc) =
        parse_sections doc ++
          [(lit ("# ") ++ pyUpper target, pyStrip nc)] := by
      rw [hR1, hsetfresh, parse_rebuild _ hWF1, List.map_append,
        mapStrip_eq_self _ hstr]
      rfl
    have hfind2 : (parse_sections (update_section doc target nc)).find?
        (fun kv2 => matchesTarget kv2.1 target) =
        some (lit ("# ") ++ pyUpper target, pyStrip nc) := by
      rw [hparse1]
      exact find?_append_last (fun k2 => matchesTarget k2 target) _
        (pyStrip nc) hcase2.2 (parse_sections doc)
        (fun kv hkv => by
          simpa using List.find?_eq_none.mp hfind kv hkv)
    rw [update_section_eq_found (update_section doc target nc) target nc
      _ hfind2, hparse1]
    have hstep : dictSet (parse_sections doc ++
        [(lit ("# ") ++ pyUpper target, pyStrip nc)])
        (lit ("# ") ++ pyUpper target,
          pyStrip nc).1 nc =
        dictSet (dictSet (parse_sections doc)
          (lit ("# ") ++ pyUpper target) (pyStrip nc))
          (lit ("# ") ++ pyUpper target) nc := by
      rw [dictSet_fresh _ (pyStrip nc) (parse_sections doc) hfresh]
    rw [hstep, dictSet_dictSet, hR1, hsetfresh]

/-- Witness for the amended C2 at a concrete document. -/
theorem update_section_idem_witness :
    update_section (update_section (lit ("# GOAL\nhello")) (lit ("GOAL"))
        (lit ("new"))) (lit ("GOAL")) (lit ("new")) =
      update_section (lit ("# GOAL\nhello")) (lit ("GOAL")) (lit ("new")) :=
  update_section_idem (lit ("# GOAL\nhello")) (lit ("GOAL")) (lit ("new"))
    (by decide) (by decide) (by decide) (Or.inl (by decide))

/-- C3 counterexample: with no requirements section (indeed no recognized
section at all) the document is not returned unchanged — the function
still re-serializes the parse, here prefixing the synthetic
full-document heading. -/
theorem remove_requirement_not_noop :
    remove_requirement_from_prompt (lit ("hello")) (lit ("x")) =
      lit ("Полный промпт\nhello") ∧
    remove_requirement_from_prompt (lit ("hello")) (lit ("x")) ≠
      lit ("hello") := by
  constructor
  · decide
  · decide

/-- C3 amended: when no requirements section exists the function returns
the document re-serialized from its parsed sections — the unchanged
document exactly when it is already in serialized normal form; and for
any document with a recognized heading, every section whose heading is
not a requirements heading keeps exactly its parsed body. -/
theorem remove_requirement_frame :
    (∀ (D : List (List Char × List Char)) (m : List Char), WFDict D →
      (∀ kv ∈ D, pyStrip kv.2 = kv.2) →
      (∀ kv ∈ D, isReqKey kv.1 = false) →
      remove_requirement_from_prompt (rebuildPrompt D) m =
        rebuildPrompt D) ∧
    (∀ (doc m key : List Char),
      (∃ l ∈ splitNl doc, isSectionHeading l = true) →
      (∀ kv ∈ parse_sections doc, isReqKey kv.1 = true → key ≠ kv.1) →
      dictLookup (parse_sections (remove_requirement_from_prompt doc m))
        key = dictLookup (parse_sections doc) key) := by
  constructor
  · intro D m hWF hstr hreq
    have hparse : parse_sections (rebuildPrompt D) = D := by
      rw [parse_rebuild D hWF, mapStrip_eq_self D hstr]
    have hfind : (parse_sections (rebuildPrompt D)).find?
        (fun kv2 => isReqKey kv2.1) = none := by
      rw [hparse]
      exact List.find?_eq_none.mpr (fun kv hkv => by simp [hreq kv hkv])
    rw [remove_requirement_eq_notfound (rebuildPrompt D) m hfind, hparse]
  · intro doc m key hdoc hkeyne
    obtain ⟨hWF, hstr⟩ := parse_sections_wfdict doc hdoc
    cases hfind : (parse_sections doc).find? (fun kv2 => isReqKey kv2.1)
      with
    | none =>
      rw [remove_requirement_eq_notfound doc m hfind,
        parse_rebuild _ hWF, mapStrip_eq_self _ hstr]
    | some kv =>
      obtain ⟨k, w⟩ := kv
      have hkmem : (k, w) ∈ parse_sections doc :=
        List.mem_of_find?_eq_some hfind
      have hkreq : isReqKey k = true := by
        have := List.find?_some hfind
        simpa using this
      have hkne : key ≠ k := hkeyne (k, w) hkmem hkreq
      have hkkey : k ∈ dictKeys (parse_sections doc) := by
        rw [dictKeys, List.mem_map]
        exact ⟨(k, w), hkmem, rfl⟩
      have hfl : ∀ l ∈ (splitNl w).filter
          (fun line => !(hasSub (pyLower line) (pyLower m))),
          isSectionHeading l = false ∧ '\n' ∉ l := by
        intro l hl
        have hlm : l ∈ splitNl w := List.mem_of_mem_filter hl
        exact ⟨hWF.2.2.2.1 (k, w) hkmem l hlm,
          noNl_of_mem_splitNl w l hlm⟩
      have hWF1 : WFDict (dictSet (parse_sections doc) k
          (pyStrip (joinNl ((splitNl w).filter
            (fun line => !(hasSub (pyLower line) (pyLower m))))))) :=
        WFDict_dictSet_body (parse_sections doc) hWF k _ hkkey
          (strip_join_lines_not_heading _ hfl) (stripR_pyStrip _)
      rw [remove_requirement_eq_found doc m (k, w) hfind,
        parse_rebuild _ hWF1, mapStrip_dictSet, mapStrip_eq_self _ hstr]
      exact dictLookup_dictSet_ne k key _ hkne (parse_sections doc)

/-- Witness for the amended C3 at concrete documents. -/
theorem remove_requirement_frame_witness :
    remove_requirement_from_prompt
        (rebuildPrompt [(lit ("# GOAL"), lit ("a"))]) (lit ("x")) =
      rebuildPrompt [(lit ("# GOAL"), lit ("a"))] ∧
    dictLookup (parse_sections (remove_requirement_from_prompt
        (lit ("# GOAL\na\n# REQUIREMENTS\n- b")) (lit ("b"))))
        (lit ("# GOAL")) =
      dictLookup (parse_sections (lit ("# GOAL\na\n# REQUIREMENTS\n- b")))
        (lit ("# GOAL")) :=
  ⟨remove_requirement_frame.1 [(lit ("# GOAL"), lit ("a"))] (lit ("x"))
      (by simp only [WFDict, WFKey]; decide) (by decide) (by decide),
   remove_requirement_frame.2 (lit ("# GOAL\na\n# REQUIREMENTS\n- b"))
      (lit ("b")) (lit ("# GOAL")) (by decide) (by decide)⟩

theorem stripR_of_pyStrip_eq (x : List Char) (h : pyStrip x = x) :
    stripR x = x := by
  conv_lhs => rw [← h]
  rw [stripR_pyStrip, h]

theorem stripL_of_pyStrip_eq (x : List Char) (h : pyStrip x = x) :
    stripL x = x := by
  conv_lhs => rw [← h]
  rw [stripL_pyStrip, h]

theorem hasSub_dash_line (r : List Char) :
    hasSub (pyLower ('-' :: ' ' :: r)) (pyLower r) = true := by
  rw [show pyLower ('-' :: ' ' :: r) =
      [pyLowerChar '-', pyLowerChar ' '] ++ pyLower r from by
    simp [pyLower]]
  exact hasSub_append_left _ _ _ (hasSub_self (pyLower r))

/-- C4 counterexample: appending requirement `python` and then removing
`python` does not restore the requirements section when an original line
already contained the text — both lines are removed. -/
theorem add_remove_requirement_counterexample :
    dictLookup (parse_sections (remove_requirement_from_prompt
        (add_requirement_to_prompt (lit ("# REQUIREMENTS\n- use python"))
          (lit ("python"))) (lit ("python")))) (lit ("# REQUIREMENTS")) =
      some [] ∧
    dictLookup (parse_sections (lit ("# REQUIREMENTS\n- use python")))
        (lit ("# REQUIREMENTS")) = some (lit ("- use python")) ∧
    some ([] : List Char) ≠ some (lit ("- use python")) := by
  refine ⟨by decide, by decide, by decide⟩

/-- C4 amended: `add_requirement_to_prompt` followed by
`remove_requirement_from_prompt` with the same text restores the
requirements section exactly, provided the document has a recognized
heading and a requirements section, the text has no newline and no
surrounding whitespace, and no existing line of the requirements body
contains the text case-insensitively. -/
theorem add_remove_requirement_inverse (doc r : List Char)
    (hdoc : ∃ l ∈ splitNl doc, isSectionHeading l = true)
    (kv : List Char × List Char)
    (hfind : (parse_sections doc).find? (fun kv2 => isReqKey kv2.1) =
      some kv)
    (hrNl : '\n' ∉ r) (hrS : pyStrip r = r)
    (hB : ∀ l ∈ splitNl kv.2, hasSub (pyLower l) (pyLower r) = false) :
    dictLookup (parse_sections (remove_requirement_from_prompt
      (add_requirement_to_prompt doc r) r)) kv.1 = some kv.2 := by
  obtain ⟨k, w⟩ := kv
  simp only at hB ⊢
  obtain ⟨hWF, hstr⟩ := parse_sections_wfdict doc hdoc
  have hkmem : (k, w) ∈ parse_sections doc :=
    List.mem_of_find?_eq_some hfind
  have hkkey : k ∈ dictKeys (parse_sections doc) := by
    rw [dictKeys, List.mem_map]
    exact ⟨(k, w), hkmem, rfl⟩
  have hwstr : pyStrip w = w := hstr (k, w) hkmem
  have hwlines : ∀ l ∈ splitNl w, isSectionHeading l = false :=
    hWF.2.2.2.1 (k, w) hkmem
  have hrne : r ≠ [] := by
    intro h0
    cases hsw : splitNl w with
    | nil => exact splitNl_ne_nil w hsw
    | cons l0 t =>
      have := hB l0 (by rw [hsw]; simp)
      rw [h0] at this
      rw [show pyLower [] = [] from rfl, hasSub_nil_sub] at this
      exact absurd this (by simp)
  have hrR : stripR r = r := stripR_of_pyStrip_eq r hrS
  obtain ⟨r0, cr, hrdec, hcr⟩ := stripR_eq_last_non_ws r hrR hrne
  have hlinerNl : '\n' ∉ ('-' :: ' ' :: r) := by
    intro hmem
    rcases List.mem_cons.mp hmem with h1 | h1
    · exact absurd h1.symm (by decide)
    · rcases List.mem_cons.mp h1 with h2 | h2
      · exact absurd h2.symm (by decide)
      · exact hrNl h2
  have hshape : w ++ lit ("\n- ") ++ r = w ++ '\n' :: ('-' :: ' ' :: r) := by
    simp [lit]
  have hnewR : stripR (w ++ lit ("\n- ") ++ r) =
      w ++ lit ("\n- ") ++ r := by
    have hdec2 : w ++ lit ("\n- ") ++ r =
        (w ++ lit ("\n- ") ++ r0) ++ [cr] := by
      rw [hrdec]
      simp
    rw [hdec2, stripR_of_last_non_ws _ cr hcr]
  have hnewLines : ∀ l ∈ splitNl (w ++ lit ("\n- ") ++ r),
      isSectionHeading l = false := by
    rw [hshape, splitNl_append_nl, splitNl_noNl _ hlinerNl]
    intro l hl
    rcases List.mem_append.mp hl with h1 | h1
    · exact hwlines l h1
    · rw [List.mem_singleton.mp h1]
      exact nonhash_head_not_heading '-' _ (by decide) (by decide)
  have hWF1 : WFDict (dictSet (parse_sections doc) k
      (w ++ lit ("\n- ") ++ r)) :=
    WFDict_dictSet_body (parse_sections doc) hWF k _ hkkey hnewLines hnewR
  have hA := add_requirement_eq_found doc r (k, w) hfind
  simp only at hA
  have hparseA : parse_sections (add_requirement_to_prompt doc r) =
      dictSet (parse_sections doc) k (pyStrip (w ++ lit ("\n- ") ++ r)) := by
    rw [hA, parse_rebuild _ hWF1, mapStrip_dictSet,
      mapStrip_eq_self _ hstr]
  have hfindA : (parse_sections (add_requirement_to_prompt doc r)).find?
      (fun kv2 => isReqKey kv2.1) =
      some (k, pyStrip (w ++ lit ("\n- ") ++ r)) := by
    rw [hparseA]
    exact find?_dictSet_key isReqKey k w _ (parse_sections doc)
      hWF.2.2.1 hfind
  have hfiltval : pyStrip (joinNl
      ((splitNl (pyStrip (w ++ lit ("\n- ") ++ r))).filter
        (fun line => !(hasSub (pyLower line) (pyLower r))))) = w := by
    by_cases hw : w = []
    · subst hw
      have h1 : stripL (([] : List Char) ++ lit ("\n- ") ++ r) =
          '-' :: ' ' :: r := by
        rw [hshape, List.nil_append, stripL, List.dropWhile_cons,
          show isPySpace '\n' = true from by decide]
        simp only [if_true]
        rw [List.dropWhile_cons,
          show isPySpace '-' = false from by decide]
        simp
      have hps : pyStrip (([] : List Char) ++ lit ("\n- ") ++ r) =
          '-' :: ' ' :: r := by
        rw [pyStrip, h1,
          show ('-' :: ' ' :: r) = ('-' :: ' ' :: r0) ++ [cr] from by
            rw [hrdec]
            simp]
        exact stripR_of_last_non_ws _ cr hcr
      rw [hps, splitNl_noNl _ hlinerNl, List.filter_singleton,
        hasSub_dash_line r]
      simp only [Bool.not_true, Bool.false_eq_true, if_false]
      rfl
    · have hps : pyStrip (w ++ lit ("\n- ") ++ r) =
          w ++ lit ("\n- ") ++ r := by
        rw [pyStrip]
        have hwl : stripL w = w := stripL_of_pyStrip_eq w hwstr
        cases hwc : w with
        | nil => exact absurd hwc hw
        | cons c0 t0 =>
          have hc0 : isPySpace c0 = false := by
            rw [hwc] at hwl
            exact stripL_head_non_ws c0 t0 hwl
          have hthis : stripL ((c0 :: t0) ++ lit ("\n- ") ++ r) =
              (c0 :: t0) ++ lit ("\n- ") ++ r := by
            simp only [List.cons_append, stripL, List.dropWhile_cons,
              hc0]
            simp
          rw [hthis, ← hwc]
          exact hnewR
      rw [hps, hshape, splitNl_append_nl, splitNl_noNl _ hlinerNl,
        List.filter_append, List.filter_singleton, hasSub_dash_line r,
        List.filter_eq_self.mpr (fun l hl => by simp [hB l hl])]
      simp only [Bool.not_true, Bool.false_eq_true, if_false,
        Bool.cond_false, List.append_nil]
      rw [joinNl_splitNl, hwstr]
  have hremove := remove_requirement_eq_found
    (add_requirement_to_prompt doc r) r
    (k, pyStrip (w ++ lit ("\n- ") ++ r)) hfindA
  simp only at hremove
  rw [hremove, hfiltval, hparseA, dictSet_dictSet,
    dictSet_lookup_self k w _ (mem_nodup_lookup (k, w) _ hWF.2.2.1 hkmem),
    parse_rebuild _ hWF, mapStrip_eq_self _ hstr]
  exact mem_nodup_lookup (k, w) _ hWF.2.2.1 hkmem

/-- Witness for the amended C4 at a concrete document. -/
theorem add_remove_requirement_inverse_witness :
    dictLookup (parse_sections (remove_requirement_from_prompt
        (add_requirement_to_prompt (lit ("# GOAL\nx\n# REQUIREMENTS\n- use java"))
          (lit ("python"))) (lit ("python")))) (lit ("# REQUIREMENTS")) =
      some (lit ("- use java")) :=
  add_remove_requirement_inverse
    (lit ("# GOAL\nx\n# REQUIREMENTS\n- use java")) (lit ("python"))
    (by decide) (lit ("# REQUIREMENTS"), lit ("- use java")) (by decide)
    (by decide) (by decide) (by decide)

theorem dictLookup_dictSet_self (k v : List Char) :
    ∀ (d : List (List Char × List Char)),
      dictLookup (dictSet d k v) k = some v := by
  intro d
  induction d with
  | nil => simp [dictSet, dictLookup]
  | cons kv0 t ih =>
    cases kv0 with
    | mk k0 v0 =>
      by_cases hk : k0 = k
      · rw [dictSet, if_pos hk, dictLookup, if_pos hk]
      · rw [dictSet, if_neg hk, dictLookup, if_neg hk, ih]

theorem dictSet_mem_length (k v : List Char) :
    ∀ (d : List (List Char × List Char)), k ∈ dictKeys d →
      (dictSet d k v).length = d.length := by
  intro d
  induction d with
  | nil => intro h; simp [dictKeys] at h
  | cons kv0 t ih =>
    cases kv0 with
    | mk k0 v0 =>
      intro h
      by_cases hk : k0 = k
      · rw [dictSet, if_pos hk]
        simp
      · rw [dictSet, if_neg hk]
        simp only [List.length_cons]
        rw [ih]
        simp only [dictKeys, List.map_cons, List.mem_cons] at h
        rcases h with h1 | h1
        · exact absurd h1.symm hk
        · simpa [dictKeys] using h1

theorem getD_append_self (x y : List Char) :
    ∀ (xs : List (List Char)), (xs ++ [x]).getD xs.length y = x := by
  intro xs
  induction xs with
  | nil => rfl
  | cons a t ih => simp [ih]

theorem runAnswers_append (u now : Nat)
    (recGen : List (List Char × List Char) →
      Except Unit RecommendationRecord) :
    ∀ (xs ys : List (List Char)) (acc : Store × DialogueState),
      runAnswers u now recGen acc (xs ++ ys) =
        runAnswers u now recGen (runAnswers u now recGen acc xs) ys := by
  intro xs
  induction xs with
  | nil => intro ys acc; rfl
  | cons x xs' ih =>
    intro ys acc
    obtain ⟨st, ds⟩ := acc
    by_cases hds : ds = .waiting_for_clarification_answers
    · simp only [List.cons_append, runAnswers, hds, if_pos rfl]
      exact ih ys _
    · simp only [List.cons_append, runAnswers, if_neg hds]
      cases ys with
      | nil => rfl
      | cons y ys' => simp only [runAnswers, if_neg hds]

theorem take_succ_getD (qs : List (List Char)) (j : Nat)
    (hj : j < qs.length) :
    qs.take (j + 1) = qs.take j ++ [qs.getD j []] := by
  rw [List.take_succ, List.getElem?_eq_getElem hj,
    List.getD_eq_getElem?_getD, List.getElem?_eq_getElem hj]
  rfl

theorem drop_cons_getD (qs : List (List Char)) (j : Nat)
    (hj : j < qs.length) :
    qs.drop j = qs.getD j [] :: qs.drop (j + 1) := by
  rw [List.drop_eq_getElem_cons hj, List.getD_eq_getElem?_getD,
    List.getElem?_eq_getElem hj]
  rfl

theorem runAnswers_fresh (u now : Nat)
    (recGen : List (List Char × List Char) →
      Except Unit RecommendationRecord) (qs : List (List Char)) :
    ∀ (ms : List (List Char)) (st : Store) (s : Session) (j : Nat),
      st u = some s →
      s.clarification_questions = qs →
      s.answers.length = j →
      dictKeys s.answers = qs.take j →
      j + ms.length + 1 ≤ qs.length →
      (qs.take (j + ms.length)).Nodup →
      ∃ (st' : Store) (s' : Session),
        runAnswers u now recGen (st, .waiting_for_clarification_answers)
          ms = (st', .waiting_for_clarification_answers) ∧
        st' u = some s' ∧
        s'.clarification_questions = qs ∧
        s'.answers = s.answers ++ ((qs.drop j).take ms.length).zip ms := by
  intro ms
  induction ms with
  | nil =>
    intro st s j hst hq hlen hkeys hbound hnd
    exact ⟨st, s, rfl, hst, hq, by simp⟩
  | cons m0 ms' ih =>
    intro st s j hst hq hlen hkeys hbound hnd
    simp only [List.length_cons] at hbound
    have hjlt : j < qs.length := by omega
    have hqne : qs.isEmpty = false := by
      rw [List.isEmpty_eq_false]
      intro h0
      rw [h0] at hjlt
      simp at hjlt
    have hnotall : ¬qs.length ≤ s.answers.length := by
      rw [hlen]
      omega
    have hnext : s.answers.length + 1 < qs.length := by
      rw [hlen]
      omega
    have hfresh : qs.getD j [] ∉ dictKeys s.answers := by
      rw [hkeys]
      have hnd1 : (qs.take (j + 1)).Nodup := by
        have hsub : qs.take (j + 1) =
            (qs.take (j + (ms'.length + 1))).take (j + 1) := by
          rw [List.take_take]
          refine congrArg (fun n => qs.take n) ?_
          omega
        rw [hsub]
        exact hnd.sublist (List.take_sublist _ _)
      rw [take_succ_getD qs j hjlt] at hnd1
      exact nodup_split_not_mem (c := []) (by simpa using hnd1)
    have hstep : process_clarification_answer st u now m0 recGen =
        (setStore st u
          { s with answers := dictSet s.answers (qs.getD j []) m0 },
         .waiting_for_clarification_answers,
         [.answer_accepted (s.answers.length + 1)
            s.clarification_questions.length]) := by
      simp only [process_clarification_answer, get_session, hst,
        add_answer, hq, hqne, Bool.false_eq_true, if_false, hlen]
      rw [if_neg (by omega : ¬qs.length ≤ j),
        if_pos (by omega : j + 1 < qs.length)]
    have hrun : runAnswers u now recGen
        (st, .waiting_for_clarification_answers) (m0 :: ms') =
        runAnswers u now recGen
          (setStore st u
            { s with answers := dictSet s.answers (qs.getD j []) m0 },
           .waiting_for_clarification_answers) ms' := by
      simp only [runAnswers, if_pos rfl, hstep]
      rfl
    rw [hrun]
    have hset : dictSet s.answers (qs.getD j []) m0 =
        s.answers ++ [(qs.getD j [], m0)] :=
      dictSet_fresh _ _ _ hfresh
    obtain ⟨st2, s2, hr, hst2, hq2, hans⟩ := ih (setStore st u
        { s with answers := dictSet s.answers (qs.getD j []) m0 })
      { s with answers := dictSet s.answers (qs.getD j []) m0 } (j + 1)
      (setStore_self st u _) hq
      (by rw [show ({ s with answers := dictSet s.answers (qs.getD j []) m0 }
            : Session).answers = dictSet s.answers (qs.getD j []) m0 from rfl,
          hset]
          simp [hlen])
      (by
        simp only [hset, dictKeys, List.map_append]
        rw [take_succ_getD qs j hjlt, ← dictKeys, hkeys]
        rfl)
      (by omega)
      (by
        have he : j + 1 + ms'.length = j + (ms'.length + 1) := by omega
        rw [he]
        simpa using hnd)
    refine ⟨st2, s2, hr, hst2, hq2, ?_⟩
    rw [hans]
    simp only [hset]
    rw [drop_cons_getD qs j hjlt]
    simp

theorem setStore_setStore (st : Store) (u : Nat) (s1 s2 : Session) :
    setStore (setStore st u s1) u s2 = setStore st u s2 := by
  funext v
  by_cases hv : v = u
  · simp [setStore, hv]
  · simp [setStore, hv]

theorem process_final_answer_step (u now : Nat)
    (recGen : List (List Char × List Char) →
      Except Unit RecommendationRecord) (r : RecommendationRecord)
    (st : Store) (s : Session) (qs : List (List Char)) (m : List Char)
    (hst : st u = some s)
    (hq : s.clarification_questions = qs)
    (hlen : s.answers.length + 1 = qs.length)
    (hgen : recGen (dictSet s.answers (qs.getD s.answers.length []) m)
      = .ok r) :
    process_clarification_answer st u now m recGen =
      (setStore st u
        { s with
          answers := dictSet s.answers (qs.getD s.answers.length []) m,
          recommendations := some r },
       .showing_recommendations,
       [.answers_received, .recommendations_ready]) := by
  have hqne : qs.isEmpty = false := by
    rw [List.isEmpty_eq_false]
    intro h0
    rw [h0] at hlen
    simp at hlen
  simp only [process_clarification_answer, get_session, hst, hq, hqne,
    Bool.false_eq_true, if_false]
  rw [if_neg (by omega : ¬qs.length ≤ s.answers.length),
    if_neg (by omega : ¬(s.answers.length + 1 < qs.length))]
  simp only [add_answer, get_session, hst, setStore_self]
  rw [hgen]
  simp only [set_recommendations, get_session, setStore_self,
    setStore_setStore]
  rw [hq]

/-- C10: after every answer-recording step the answers dict keeps at most one
entry per distinct question string (the keys stay duplicate-free), as claimed.
The claimed consequence, however, only holds when the duplicated question is
the final one: if the question list is qs0 ++ [d] with qs0 duplicate-free and
d already occurring in qs0, then one message per question position drives the
dialogue to showing_recommendations, the answer recorded earlier for d is
silently overwritten by the last message, and the recommendation call sees
one pair fewer than questions asked.  When the duplicate occurs before the
last position the dialogue stalls instead of advancing (see the
counterexample). -/
theorem clarification_duplicate_overwrite
    (u now : Nat)
    (recGen : List (List Char × List Char) →
      Except Unit RecommendationRecord) (r : RecommendationRecord)
    (qs0 : List (List Char)) (d : List Char)
    (ms : List (List Char)) (m : List Char)
    (st : Store) (s : Session)
    (hgen : ∀ ps, recGen ps = .ok r)
    (hd : d ∈ qs0) (hnd : qs0.Nodup) (hml : ms.length = qs0.length)
    (hst : st u = some s)
    (hq : s.clarification_questions = qs0 ++ [d])
    (hans : s.answers = []) :
    (∀ (st1 : Store) (s1 s2 : Session) (q a : List Char),
        st1 u = some s1 → (dictKeys s1.answers).Nodup →
        add_answer st1 u now q a u = some s2 →
        (dictKeys s2.answers).Nodup) ∧
    ∃ (st' : Store) (s' : Session),
      runAnswers u now recGen (st, .waiting_for_clarification_answers)
        (ms ++ [m]) = (st', .showing_recommendations) ∧
      st' u = some s' ∧
      s'.answers.length = qs0.length ∧
      s'.answers.length + 1 = s'.clarification_questions.length ∧
      dictLookup s'.answers d = some m ∧
      s'.recommendations = some r := by
  constructor
  · intro st1 s1 s2 q a hst1 hnd1 hadd
    simp only [add_answer, get_session, hst1, setStore_self,
      Option.some.injEq] at hadd
    subst hadd
    exact dictKeys_nodup_dictSet q a s1.answers hnd1
  · have htake : (qs0 ++ [d]).take ms.length = qs0 := by
      rw [hml]
      simp
    obtain ⟨st1, s1, hr1, hst1, hq1, hans1⟩ :=
      runAnswers_fresh u now recGen (qs0 ++ [d]) ms st s 0 hst hq
        (by rw [hans]; rfl) (by rw [hans]; rfl)
        (by simp [hml])
        (by
          simp only [Nat.zero_add, htake]
          exact hnd)
    rw [hans, List.drop_zero, htake, List.nil_append] at hans1
    have hlen1 : s1.answers.length = qs0.length := by
      rw [hans1, List.length_zip, hml]
      simp
    have hkeys1 : dictKeys s1.answers = qs0 := by
      rw [hans1]
      simp only [dictKeys]
      exact List.map_fst_zip qs0 ms (by omega)
    have hgd : (qs0 ++ [d]).getD s1.answers.length [] = d := by
      rw [hlen1]
      exact getD_append_self d [] qs0
    have hstep := process_final_answer_step u now recGen r st1 s1
      (qs0 ++ [d]) m hst1 hq1 (by rw [hlen1]; simp) (hgen _)
    rw [hgd] at hstep
    have hrun2 : runAnswers u now recGen
        (st1, .waiting_for_clarification_answers) [m] =
        (setStore st1 u
          { s1 with
            answers := dictSet s1.answers d m,
            recommendations := some r },
         .showing_recommendations) := by
      simp only [runAnswers, if_pos rfl, hstep]
      rfl
    have hdm : d ∈ dictKeys s1.answers := by
      rw [hkeys1]
      exact hd
    have hflen : (dictSet s1.answers d m).length = qs0.length := by
      rw [dictSet_mem_length d m s1.answers hdm, hlen1]
    refine ⟨setStore st1 u
        { s1 with
          answers := dictSet s1.answers d m,
          recommendations := some r },
      { s1 with
        answers := dictSet s1.answers d m,
        recommendations := some r },
      ?_, setStore_self _ _ _, ?_, ?_, ?_, ?_⟩
    · rw [runAnswers_append u now recGen ms [m], hr1]
      exact hrun2
    · exact hflen
    · show (dictSet s1.answers d m).length + 1 =
        s1.clarification_questions.length
      rw [hflen, hq1]
      simp
    · exact dictLookup_dictSet_self d m s1.answers
    · rfl

/-- C10 counterexample to the claimed consequence: with the question list
["a?", "a?", "b?"] — a duplicate that is not in the last position — and a
recommendation generator that always succeeds, three messages (one per
question position) leave the dialogue stuck in
waiting_for_clarification_answers: after the duplicate is reached,
answered_count stays at 1 forever, so the dialogue never advances to
recommendation generation. -/
theorem clarification_duplicate_counterexample :
    (runAnswers 1 0 (fun _ => Except.ok (fallbackNoJson []))
      (setStore (fun _ => none) 1
        { task_description := []
          clarification_questions := [lit ("a?"), lit ("a?"), lit ("b?")]
          answers := []
          recommendations := none
          current_prompt := []
          created_at := 0
          edited_count := 0 },
       .waiting_for_clarification_answers)
      [lit ("m1"), lit ("m2"), lit ("m3")]).2 =
      .waiting_for_clarification_answers := by
  rfl

/-- Witness for the C10 theorem at concrete inputs: questions ["a?", "a?"],
messages "m1" then "m2", and a constant successful generator. -/
theorem clarification_duplicate_overwrite_witness :
    (∀ (st1 : Store) (s1 s2 : Session) (q a : List Char),
        st1 1 = some s1 → (dictKeys s1.answers).Nodup →
        add_answer st1 1 0 q a 1 = some s2 →
        (dictKeys s2.answers).Nodup) ∧
    ∃ (st' : Store) (s' : Session),
      runAnswers 1 0 (fun _ => Except.ok (fallbackNoJson []))
        (setStore (fun _ => none) 1
          { task_description := []
            clarification_questions := [lit ("a?"), lit ("a?")]
            answers := []
            recommendations := none
            current_prompt := []
            created_at := 0
            edited_count := 0 },
         .waiting_for_clarification_answers)
        ([lit ("m1")] ++ [lit ("m2")]) = (st', .showing_recommendations) ∧
      st' 1 = some s' ∧
      s'.answers.length = [lit ("a?")].length ∧
      s'.answers.length + 1 = s'.clarification_questions.length ∧
      dictLookup s'.answers (lit ("a?")) = some (lit ("m2")) ∧
      s'.recommendations = some (fallbackNoJson []) :=
  clarification_duplicate_overwrite 1 0
    (fun _ => Except.ok (fallbackNoJson [])) (fallbackNoJson [])
    [lit ("a?")] (lit ("a?")) [lit ("m1")] (lit ("m2"))
    (setStore (fun _ => none) 1
      { task_description := []
        clarification_questions := [lit ("a?"), lit ("a?")]
        answers := []
        recommendations := none
        current_prompt := []
        created_at := 0
        edited_count := 0 })
    { task_description := []
      clarification_questions := [lit ("a?"), lit ("a?")]
      answers := []
      recommendations := none
      current_prompt := []
      created_at := 0
      edited_count := 0 }
    (fun _ => rfl) (by decide) (by decide) rfl rfl rfl rfl
